import Mathlib

/-!
Verification of the agor Session/Task/Worktree coordination engine against its
natural-language specification.

The definitions below are shallow embeddings of the TypeScript sources:
  - `buildSessionTree` from apps/agor-ui/src/components/WorktreeCard/buildSessionTree.ts
  - `ReposService.cloneRepository` and `ReposService.createWorktree` from
    apps/agor-daemon/src/services/repos.ts
  - the duplicate-name check of `WorktreeAdd.run` from
    apps/agor-cli/src/commands/repo/worktree/add.ts
  - the mock session records from apps/agor-ui/src/mocks/sessions.ts
Operations that the specification describes but whose implementation is not in
the sources (the genealogy create/fork/spawn operations, the task checkpoint
engine, ancestry queries) are modelled from the specification text; each such
definition carries a doc comment starting with `Modelled from the spec:`.
-/

namespace Agor

/-- Genealogy record embedded in a session (core types; shape as used by
buildSessionTree.ts and mocks/sessions.ts). -/
structure Genealogy where
  forked_from_session_id : Option String := none
  fork_point_task_id : Option String := none
  parent_session_id : Option String := none
  spawn_point_task_id : Option String := none
  children : List String := []
deriving DecidableEq

/-- Git state snapshot carried by a session (mocks/sessions.ts). -/
structure GitState where
  ref : String := ""
  base_sha : String := ""
  current_sha : String := ""
deriving DecidableEq

/-- Session record, restricted to the fields the verified code reads. -/
structure Session where
  session_id : String
  agent : String := ""
  status : String := "idle"
  description : String := ""
  git_state : GitState := {}
  concepts : List String := []
  genealogy : Option Genealogy := none
  tasks : List String := []
  message_count : Nat := 0
  tool_use_count : Nat := 0
deriving DecidableEq

/-- JavaScript string truthiness: `undefined`, `null` and `""` are falsy.
`strTruthy o` is `o` when it holds a non-empty string, `none` otherwise. -/
def strTruthy (o : Option String) : Option String :=
  match o with
  | some s => if s = "" then none else some s
  | none => none

/-- The ancestor pointer buildSessionTree.ts selects for a session:
`session.genealogy?.parent_session_id || session.genealogy?.forked_from_session_id`
(JavaScript `||`, so an empty string falls through / is falsy). -/
def parentRefOf (s : Session) : Option String :=
  match s.genealogy with
  | none => none
  | some g => (strTruthy g.parent_session_id).orElse fun _ => strTruthy g.forked_from_session_id

/-- Tree node produced by buildSessionTree (antd DataNode shape: the key and
title are derived from the session; only session and children matter here). -/
inductive SessionTreeNode where
  | node (session : Session) (children : List SessionTreeNode)

def SessionTreeNode.session : SessionTreeNode → Session
  | .node s _ => s

def SessionTreeNode.children : SessionTreeNode → List SessionTreeNode
  | .node _ cs => cs

/-- The children map of buildSessionTree.ts: sessions whose chosen ancestor
pointer equals `pid`, in input order (the TS code builds this map by pushing
while iterating the input list, which is exactly a stable filter). -/
def childrenOf (sessions : List Session) (pid : String) : List Session :=
  sessions.filter (fun s => parentRefOf s == some pid)

/-- The recursive `buildNode` of buildSessionTree.ts.  The TS function recurses
through the children map without a depth bound; the embedding carries explicit
fuel, and `buildSessionTree` supplies `sessions.length`, which is shown below
to be sufficient on acyclic inputs (the only inputs on which the TS recursion
terminates when started from a root). -/
def buildNode (sessions : List Session) : Nat → Session → SessionTreeNode
  | 0, s => .node s []
  | fuel + 1, s =>
      .node s ((childrenOf sessions s.session_id).map (buildNode sessions fuel))

/-- buildSessionTree from buildSessionTree.ts: roots are the sessions whose
chosen ancestor pointer is absent/falsy; each root is expanded recursively. -/
def buildSessionTree (sessions : List Session) : List SessionTreeNode :=
  (sessions.filter (fun s => parentRefOf s == none)).map
    (buildNode sessions sessions.length)

mutual

/-- All sessions of a tree, preorder. -/
def flattenNode : SessionTreeNode → List Session
  | .node s cs => s :: flattenForest cs

/-- All sessions of a forest, preorder. -/
def flattenForest : List SessionTreeNode → List Session
  | [] => []
  | n :: ns => flattenNode n ++ flattenForest ns

end

mutual

/-- Parent/child session pairs realized by a tree. -/
def edgesNode : SessionTreeNode → List (Session × Session)
  | .node s cs => cs.map (fun c => (s, c.session)) ++ edgesForest cs

/-- Parent/child session pairs realized by a forest. -/
def edgesForest : List SessionTreeNode → List (Session × Session)
  | [] => []
  | n :: ns => edgesNode n ++ edgesForest ns

end

/-- A session from mocks/sessions.ts shape with a dangling ancestor pointer:
its parent_session_id names a session that is not in the collection. -/
def orphanSession : Session :=
  { session_id := "s-orphan"
    agent := "claude-code"
    genealogy := some { parent_session_id := some "s-missing" } }

/-! ## Daemon repos service (apps/agor-daemon/src/services/repos.ts) -/

/-- Worktree record as created by ReposService.createWorktree. -/
structure Worktree where
  repo_id : String
  name : String
  path : String
  ref : String
  base_ref : Option String := none
  new_branch : Bool := false
  worktree_unique_id : Nat := 0
  sessions : List String := []
  last_used : String := ""
deriving DecidableEq

/-- Repository record (core Repo type: daemon fields plus the embedded
worktrees list the CLI reads). -/
structure Repo where
  repo_id : String
  slug : String
  name : String := ""
  remote_url : Option String := none
  local_path : String := ""
  default_branch : String := "main"
  managed_by_agor : Bool := true
  worktrees : List Worktree := []
deriving DecidableEq

/-- The daemon state the repos service reads and writes: the repos table and
the worktrees service records. -/
structure DaemonState where
  repos : List Repo := []
  worktrees : List Worktree := []
deriving DecidableEq

/-- Errors surfaced by the daemon service embedding.  The source throws
JavaScript `Error`s; each constructor records which throw site fired and the
identifiers that the thrown message carries. -/
inductive DaemonError where
  /-- `this.get(id)` failed: no repo row with this id. -/
  | NotFound
  /-- cloneRepository: `Repository <slug> already exists in database`. -/
  | slugExists (slug : String)
  /-- The external git collaborator (cloneRepo / gitCreateWorktree) failed. -/
  | ExternalOperationFailed
deriving DecidableEq

/-- `RepoRepository.findBySlug`: first repo row with the given slug. -/
def findBySlug (st : DaemonState) (slug : String) : Option Repo :=
  st.repos.find? (fun r => r.slug == slug)

/-- Worktree path layout used by getWorktreePath of @agor/core/git.
Modelled from the spec: the function itself is not among the sources; the
repository docs (context/concepts/architecture.md) show worktrees materialized
at `~/.agor/worktrees/(repo slug)/(worktree name)`. -/
def getWorktreePath (slug name : String) : String :=
  "~/.agor/worktrees/" ++ slug ++ "/" ++ name

/-- Modelled from the spec: autoAssignWorktreeUniqueId of
@agor/core/environment/variable-resolver is not among the sources; it assigns
a unique id not used by any existing worktree, modelled here as one past the
maximum id in use.  No claim depends on the exact choice. -/
def autoAssignWorktreeUniqueId (ws : List Worktree) : Nat :=
  (ws.map (fun w => w.worktree_unique_id)).foldr max 0 + 1

/-- Result of a cloneRepo call to the external git collaborator. -/
structure CloneResult where
  path : String
  repoName : String
  defaultBranch : String
deriving DecidableEq

/-- Outcome of ReposService.cloneRepository: the returned value or thrown
error, the daemon state after the call, and whether the external clone was
attempted. -/
structure CloneOutcome where
  result : Except DaemonError Repo
  state : DaemonState
  cloneAttempted : Bool

/-- ReposService.cloneRepository: checks the slug against the database, then
clones via the external collaborator, then creates the repo row.  `cloneOk`
is the outcome of the external clone and `cloneResult` its payload; `newId`
stands for the row id the storage layer generates. -/
def cloneRepository (st : DaemonState) (url slug : String) (cloneOk : Bool)
    (cloneResult : CloneResult) (newId : String) : CloneOutcome :=
  match findBySlug st slug with
  | some _ => ⟨.error (.slugExists slug), st, false⟩
  | none =>
      if cloneOk then
        let repo : Repo :=
          { repo_id := newId
            slug := slug
            name := cloneResult.repoName
            remote_url := some url
            local_path := cloneResult.path
            default_branch := cloneResult.defaultBranch }
        ⟨.ok repo, { st with repos := st.repos ++ [repo] }, true⟩
      else ⟨.error .ExternalOperationFailed, st, true⟩

/-- Request body of ReposService.createWorktree. -/
structure CreateWorktreeData where
  name : String
  ref : String
  createBranch : Option Bool := none
  pullLatest : Option Bool := none
  sourceBranch : Option String := none
deriving DecidableEq

/-- Outcome of ReposService.createWorktree: the returned worktree or thrown
error, the daemon state after the call, and whether the external git worktree
materialization was attempted. -/
structure CreateWorktreeOutcome where
  result : Except DaemonError Worktree
  state : DaemonState
  gitAttempted : Bool

/-- ReposService.createWorktree, step for step from repos.ts: resolve the
repo by id, compute the path, call the external gitCreateWorktree (outcome
`gitOk`), then read the existing worktrees, auto-assign a unique id and create
the worktree record.  `now` stands for `new Date().toISOString()`.  There is
no duplicate-name or duplicate-path lookup anywhere in the method, and no
record is written before the git call. -/
def ReposService.createWorktree (st : DaemonState) (id : String)
    (data : CreateWorktreeData) (gitOk : Bool) (now : String) :
    CreateWorktreeOutcome :=
  match st.repos.find? (fun r => r.repo_id == id) with
  | none => ⟨.error .NotFound, st, false⟩
  | some repo =>
      let worktreePath := getWorktreePath repo.slug data.name
      if gitOk then
        let existingWorktrees := st.worktrees
        let worktreeUniqueId := autoAssignWorktreeUniqueId existingWorktrees
        let wt : Worktree :=
          { repo_id := repo.repo_id
            name := data.name
            path := worktreePath
            ref := data.ref
            base_ref := data.sourceBranch
            new_branch := data.createBranch.getD false
            worktree_unique_id := worktreeUniqueId
            sessions := []
            last_used := now }
        ⟨.ok wt, { st with worktrees := st.worktrees ++ [wt] }, true⟩
      else ⟨.error .ExternalOperationFailed, st, true⟩

/-! ## CLI worktree add (apps/agor-cli/src/commands/repo/worktree/add.ts) -/

/-- Flags of `agor repo worktree add` (`fromFlag` embeds `--from`). -/
structure WorktreeAddFlags where
  branch : Option String := none
  checkout : Bool := false
  ref : Option String := none
  fromFlag : Option String := none
  noPull : Bool := false
deriving DecidableEq

/-- Failure modes of the CLI command embedding (`this.error` call sites). -/
inductive CliError where
  /-- `Repository <slug> is not managed by Agor.` -/
  | NotManaged (slug : String)
  /-- `Worktree <name> already exists at <path>.` -/
  | WorktreeExists (name : String) (path : String)
deriving DecidableEq

/-- The decision kernel of WorktreeAdd.run, after the repo was fetched by
slug: reject unmanaged repos, reject a name already present among the repo
worktrees, otherwise determine ref / createBranch / pullLatest / sourceBranch
per the flag cases and return the request body sent to the daemon. -/
def worktreeAddRun (repo : Repo) (name : String) (flags : WorktreeAddFlags) :
    Except CliError CreateWorktreeData :=
  if !repo.managed_by_agor then .error (.NotManaged repo.slug)
  else
    match repo.worktrees.find? (fun w => w.name == name) with
    | some existing => .error (.WorktreeExists name existing.path)
    | none =>
        match flags.ref with
        | some r =>
            .ok { name := name, ref := r, createBranch := some false
                  pullLatest := some false, sourceBranch := none }
        | none =>
            if flags.checkout then
              .ok { name := name, ref := flags.branch.getD name
                    createBranch := some false, pullLatest := some false
                    sourceBranch := none }
            else
              .ok { name := name, ref := flags.branch.getD name
                    createBranch := some true
                    pullLatest := some (!flags.noPull)
                    sourceBranch := some
                      ((strTruthy flags.fromFlag).getD
                        ((strTruthy (some repo.default_branch)).getD "main")) }

/-! ## Session genealogy operations

The Session Genealogy Manager operations (`create_session`, `fork_session`,
`spawn_session`, `get_ancestors`, `get_descendants`) are described in the
specification but their implementation is not among the sources; they are
modelled from the specification text below. -/

/-- Errors of the genealogy and task-engine operations (spec taxonomy). -/
inductive EngineError where
  | SessionNotFound
  | TaskNotFound
  | ForkPointInFuture
  | InvalidTransition
  | NonMonotonicRange
  | TaskNotTerminal
deriving DecidableEq

/-- First session with the given id. -/
def findSessionById (sessions : List Session) (sid : String) : Option Session :=
  sessions.find? (fun t => t.session_id == sid)

/-- Modelled from the spec: `create_session` allocates a new root session (no
ancestor); the genealogy record carries no fork or spawn pointer. -/
def createSession (st : List Session) (sid agent : String) : List Session :=
  st ++ [{ session_id := sid, agent := agent, genealogy := some {} }]

/-- Modelled from the spec: the session record `fork_session` creates — it
copies the source concept list and git base state and sets
`forked_from_session_id` / `fork_point_task_id` only (never
`parent_session_id`). -/
def forkedSession (src : Session) (taskId newId : String) : Session :=
  { session_id := newId
    agent := src.agent
    git_state := src.git_state
    concepts := src.concepts
    genealogy := some { forked_from_session_id := some src.session_id
                        fork_point_task_id := some taskId } }

/-- Modelled from the spec: the session record `spawn_session` creates — it
sets `parent_session_id` / `spawn_point_task_id` only (never
`forked_from_session_id`). -/
def spawnedSession (parent : Session) (taskId newId agent : String) : Session :=
  { session_id := newId
    agent := agent
    genealogy := some { parent_session_id := some parent.session_id
                        spawn_point_task_id := some taskId } }

/-- Modelled from the spec: `fork_session` validates that the fork-point task
belongs to the source session, then appends the forked session.  Fails with
`SessionNotFound` / `TaskNotFound`. -/
def forkSession (st : List Session) (srcId taskId newId : String) :
    Except EngineError (List Session) :=
  match findSessionById st srcId with
  | none => .error .SessionNotFound
  | some src =>
      if taskId ∈ src.tasks then .ok (st ++ [forkedSession src taskId newId])
      else .error .TaskNotFound

/-- Modelled from the spec: `spawn_session`, same validation as fork but sets
the spawn pointers. -/
def spawnSession (st : List Session) (parentId taskId newId agent : String) :
    Except EngineError (List Session) :=
  match findSessionById st parentId with
  | none => .error .SessionNotFound
  | some parent =>
      if taskId ∈ parent.tasks then
        .ok (st ++ [spawnedSession parent taskId newId agent])
      else .error .TaskNotFound

/-- The states reachable from an empty session store through the genealogy
creation operations (the ancestor pointer of an existing session is never
mutated, per the spec algorithm notes). -/
inductive GenealogyReachable : List Session → Prop where
  | empty : GenealogyReachable []
  | create (st : List Session) (sid agent : String) :
      GenealogyReachable st → GenealogyReachable (createSession st sid agent)
  | fork (st st' : List Session) (srcId taskId newId : String) :
      GenealogyReachable st → forkSession st srcId taskId newId = .ok st' →
      GenealogyReachable st'
  | spawn (st st' : List Session) (parentId taskId newId agent : String) :
      GenealogyReachable st →
      spawnSession st parentId taskId newId agent = .ok st' →
      GenealogyReachable st'

/-- A session is a fork, a spawn, or a root — never a fork and a spawn at
once: its genealogy never carries both ancestor pointers. -/
def mutuallyExclusiveAncestry (s : Session) : Prop :=
  ∀ g, s.genealogy = some g →
    g.forked_from_session_id = none ∨ g.parent_session_id = none

instance (s : Session) : Decidable (mutuallyExclusiveAncestry s) := by
  unfold mutuallyExclusiveAncestry
  cases s.genealogy with
  | none => exact isTrue (by intro g h; cases h)
  | some g =>
      refine decidable_of_iff
        (g.forked_from_session_id = none ∨ g.parent_session_id = none) ?_
      constructor
      · intro h g' hg'; cases hg'; exact h
      · intro h; exact h g rfl

/-- Modelled from the spec: one upward step along the authoritative ancestor
pointer (fork-from or spawn-from; the spec invariant makes at most one of the
two non-null).  Resolves the pointed-to id in the store. -/
def parentSessionOf (sessions : List Session) (s : Session) : Option Session :=
  match s.genealogy with
  | none => none
  | some g =>
      match g.parent_session_id.orElse (fun _ => g.forked_from_session_id) with
      | none => none
      | some pid => findSessionById sessions pid

/-- Modelled from the spec: `get_ancestors` collects the ancestor chain,
ordered from the root down to (and excluding) the queried session.  The fuel
bounds the walk by the store size. -/
def ancestorsAux (sessions : List Session) : Nat → Session → List Session
  | 0, _ => []
  | k + 1, s =>
      match parentSessionOf sessions s with
      | none => []
      | some p => ancestorsAux sessions k p ++ [p]

/-- Modelled from the spec: `get_ancestors(session) → ordered list from root
to session`. -/
def getAncestors (sessions : List Session) (s : Session) : List Session :=
  ancestorsAux sessions sessions.length s

/-- Whether a session ancestor pointer (spawn or fork) names the given id. -/
def pointsTo (t : Session) (sid : String) : Bool :=
  match t.genealogy with
  | none => false
  | some g =>
      g.parent_session_id == some sid || g.forked_from_session_id == some sid

/-- Direct children of a session id: sessions whose fork or spawn pointer
names it (the authoritative derivation of the child list per the spec). -/
def directChildren (sessions : List Session) (sid : String) : List Session :=
  sessions.filter fun t => pointsTo t sid

/-- Modelled from the spec: `get_descendants(session_id) → set, transitive
closure`, recomputed from ancestor pointers. -/
def descendantsAux (sessions : List Session) : Nat → String → List Session
  | 0, _ => []
  | k + 1, sid =>
      (directChildren sessions sid).flatMap fun c =>
        c :: descendantsAux sessions k c.session_id

/-- Modelled from the spec: transitive closure of the child relation. -/
def getDescendants (sessions : List Session) (sid : String) : List Session :=
  descendantsAux sessions sessions.length sid

/-! ## Task checkpoint engine

The Task Checkpoint Engine (`begin_task`, `mark_running`, `complete_task`,
`fail_task`, `attach_report`) is described in the specification but its
implementation is not among the sources (the UI sources only render task
statuses and ranges); it is modelled from the specification text. -/

/-- Task status values as rendered by TaskListItem.tsx: `created`, `running`,
`completed`, `failed`. -/
inductive TaskStatus where
  | created
  | running
  | completed
  | failed
deriving DecidableEq

/-- `completed` and `failed` are the terminal statuses. -/
def TaskStatus.isTerminal : TaskStatus → Bool
  | .completed => true
  | .failed => true
  | _ => false

/-- Task record: status, message range and optional report reference.  The
end index is unset until the task completes. -/
structure TaskRec where
  task_id : String
  status : TaskStatus := .created
  start_index : Nat
  end_index : Option Nat := none
  report : Option String := none
deriving DecidableEq

/-- The effective end of a task range: its end index once set, its start
index before that (the spec uses the start index as the effective end for
tasks without one, e.g. failed tasks). -/
def effectiveEnd (t : TaskRec) : Nat :=
  t.end_index.getD t.start_index

/-- Modelled from the spec: `mark_running`, `created → running` only; fails
with `InvalidTransition` from any other state. -/
def markRunning (t : TaskRec) : Except EngineError TaskRec :=
  match t.status with
  | .created => .ok { t with status := .running }
  | _ => .error .InvalidTransition

/-- Modelled from the spec: `complete_task`, `running → completed`; fails with
`InvalidTransition` if not currently running, or `NonMonotonicRange` if the
end index is below the start index. -/
def completeTask (t : TaskRec) (endIndex : Nat) : Except EngineError TaskRec :=
  match t.status with
  | .running =>
      if endIndex < t.start_index then .error .NonMonotonicRange
      else .ok { t with status := .completed, end_index := some endIndex }
  | _ => .error .InvalidTransition

/-- Modelled from the spec: `fail_task`, `running → failed`; the start index
is the effective end, so no range can be violated. -/
def failTask (t : TaskRec) : Except EngineError TaskRec :=
  match t.status with
  | .running => .ok { t with status := .failed }
  | _ => .error .InvalidTransition

/-- Modelled from the spec: `attach_report` is allowed only once a task is
terminal; fails with `TaskNotTerminal` otherwise. -/
def attachReport (t : TaskRec) (reportRef : String) : Except EngineError TaskRec :=
  if t.status.isTerminal then .ok { t with report := some reportRef }
  else .error .TaskNotTerminal

/-- Modelled from the spec: `begin_task` appends a task in state `created`;
fails with `NonMonotonicRange` if the start index is not strictly past the
last task effective end. -/
def beginTask (ts : List TaskRec) (tid : String) (startIndex : Nat) :
    Except EngineError (List TaskRec) :=
  match ts.getLast? with
  | some last =>
      if startIndex ≤ effectiveEnd last then .error .NonMonotonicRange
      else .ok (ts ++ [{ task_id := tid, start_index := startIndex }])
  | none => .ok (ts ++ [{ task_id := tid, start_index := startIndex }])

/-- Apply a status transition to the task with the given id, leaving its
message range untouched. -/
def mapTaskById (f : TaskRec → Except EngineError TaskRec) :
    List TaskRec → String → Except EngineError (List TaskRec)
  | [], _ => .error .TaskNotFound
  | t :: rest, tid =>
      if t.task_id = tid then (f t).map (· :: rest)
      else (mapTaskById f rest tid).map (t :: ·)

/-- Modelled from the spec: `complete_task` at the session level — the task
record is completed and the session invariant that ranges stay non-overlapping
is validated synchronously (`NonMonotonicRange` when the new end index would
reach into the next task range, per the propagation policy that validation
errors are rejected before any write). -/
def completeTaskInSession :
    List TaskRec → String → Nat → Except EngineError (List TaskRec)
  | [], _, _ => .error .TaskNotFound
  | t :: rest, tid, endIndex =>
      if t.task_id = tid then
        match completeTask t endIndex with
        | .error e => .error e
        | .ok t' =>
            match rest with
            | [] => .ok (t' :: rest)
            | nxt :: _ =>
                if nxt.start_index ≤ endIndex then .error .NonMonotonicRange
                else .ok (t' :: rest)
      else (completeTaskInSession rest tid endIndex).map (t :: ·)

/-- The task lists reachable for one session from an empty history through the
task engine operations. -/
inductive TasksReachable : List TaskRec → Prop where
  | empty : TasksReachable []
  | begin (ts ts' : List TaskRec) (tid : String) (startIndex : Nat) :
      TasksReachable ts → beginTask ts tid startIndex = .ok ts' →
      TasksReachable ts'
  | run (ts ts' : List TaskRec) (tid : String) :
      TasksReachable ts → mapTaskById markRunning ts tid = .ok ts' →
      TasksReachable ts'
  | complete (ts ts' : List TaskRec) (tid : String) (endIndex : Nat) :
      TasksReachable ts → completeTaskInSession ts tid endIndex = .ok ts' →
      TasksReachable ts'
  | fail (ts ts' : List TaskRec) (tid : String) :
      TasksReachable ts → mapTaskById failTask ts tid = .ok ts' →
      TasksReachable ts'
  | report (ts ts' : List TaskRec) (tid reportRef : String) :
      TasksReachable ts →
      mapTaskById (attachReport · reportRef) ts tid = .ok ts' →
      TasksReachable ts'

/-! ## Mock session records (apps/agor-ui/src/mocks/sessions.ts) -/

/-- mockSessionA: root session, children derived index only. -/
def mockSessionA : Session :=
  { session_id := "abc123"
    agent := "claude-code"
    status := "running"
    description := "Build authentication system"
    git_state := { ref := "feature/auth", base_sha := "a4f2e91", current_sha := "b3e4d12-dirty" }
    concepts := ["auth", "security", "api-design"]
    genealogy := some { children := ["def456", "ghi789"] }
    tasks := ["task-001", "task-002", "task-005"]
    message_count := 37
    tool_use_count := 145 }

/-- mockSessionB: fork example — only the fork pointer is set. -/
def mockSessionB : Session :=
  { session_id := "def456"
    agent := "claude-code"
    status := "idle"
    description := "Try OAuth 2.0 instead"
    git_state := { ref := "feature/oauth", base_sha := "a4f2e91", current_sha := "c5f6e23" }
    concepts := ["auth", "security", "api-design"]
    genealogy := some { forked_from_session_id := some "abc123"
                        fork_point_task_id := some "task-001" }
    tasks := ["task-003"]
    message_count := 15
    tool_use_count := 56 }

/-- mockSessionC: spawn example — only the parent pointer is set. -/
def mockSessionC : Session :=
  { session_id := "ghi789"
    agent := "gemini"
    status := "completed"
    description := "Design user database schema"
    git_state := { ref := "feature/auth", base_sha := "b3e4d12", current_sha := "d7g8h34" }
    concepts := ["database", "security"]
    genealogy := some { parent_session_id := some "abc123"
                        spawn_point_task_id := some "task-002" }
    tasks := ["task-004"]
    message_count := 10
    tool_use_count := 42 }

/-- mockSessionTree: the full mocked session collection. -/
def mockSessionTree : List Session := [mockSessionA, mockSessionB, mockSessionC]

/-! ## Concrete daemon states used by counterexamples and witnesses -/

/-- A registered repository. -/
def repoR1 : Repo := { repo_id := "repo-1", slug := "acme", name := "acme" }

/-- A live worktree named feature-x under repoR1. -/
def worktreeW1 : Worktree :=
  { repo_id := "repo-1", name := "feature-x"
    path := getWorktreePath "acme" "feature-x", ref := "feature-x" }

/-- Daemon state in which (repo-1, feature-x) is already taken. -/
def dupState : DaemonState := { repos := [repoR1], worktrees := [worktreeW1] }

/-- A create-worktree request for the name that is already taken. -/
def dupRequest : CreateWorktreeData :=
  { name := "feature-x", ref := "feature-x"
    createBranch := some true, sourceBranch := some "main" }

/-- A second registered repository. -/
def repoR2 : Repo := { repo_id := "repo-2", slug := "web", name := "web" }

/-- A live worktree named main under repoR2. -/
def worktreeW2 : Worktree :=
  { repo_id := "repo-2", name := "main"
    path := getWorktreePath "web" "main", ref := "main" }

/-- Daemon state in which (repo-2, main) is already taken. -/
def dupState2 : DaemonState := { repos := [repoR2], worktrees := [worktreeW2] }

/-- A create-worktree request for the taken name main of repo-2. -/
def dupRequest2 : CreateWorktreeData :=
  { name := "main", ref := "main", createBranch := some false }

deriving instance DecidableEq for Except

/-- The range-ordering invariant of a session task list: each task effective
end lies strictly before the next task start. -/
def rangesOrdered (ts : List TaskRec) : Prop :=
  List.Chain' (fun a b => effectiveEnd a < b.start_index) ts

/-- A concrete reachable task history: t-1 begun at 0, run, completed at 2,
then t-2 begun at 3. -/
def sampleTasks : List TaskRec :=
  [{ task_id := "t-1", status := .completed, start_index := 0, end_index := some 2 },
   { task_id := "t-2", start_index := 3 }]

/-- A root session record: no fork and no spawn pointer. -/
def isRootRecord (s : Session) : Prop :=
  ∀ g, s.genealogy = some g →
    g.parent_session_id = none ∧ g.forked_from_session_id = none

/-- A concrete root session holding task t-1. -/
def rootSessionR : Session :=
  { session_id := "s-root", agent := "claude-code"
    genealogy := some {}, tasks := ["t-1"] }

/-! ## Ancestor-chain infrastructure for buildSessionTree -/

/-- One step up the ancestor pointer buildSessionTree dereferences: resolve
the chosen pointer (parent over fork, JavaScript truthiness) in the store. -/
def parentStep (sessions : List Session) (s : Session) : Option Session :=
  match parentRefOf s with
  | none => none
  | some p => findSessionById sessions p

/-- The ancestor at distance k along the chosen pointers, when every hop
resolves. -/
def ancIter (sessions : List Session) : Nat → Session → Option Session
  | 0, s => some s
  | k + 1, s =>
      match parentStep sessions s with
      | none => none
      | some v => ancIter sessions k v

/-- All genealogy references of a session are non-empty strings (JavaScript
truthiness never discards them). -/
def refsNonEmpty (s : Session) : Prop :=
  ∀ g, s.genealogy = some g →
    g.parent_session_id ≠ some "" ∧ g.forked_from_session_id ≠ some ""

instance (s : Session) : Decidable (refsNonEmpty s) := by
  unfold refsNonEmpty
  cases s.genealogy with
  | none => exact isTrue (by intro g h; cases h)
  | some g =>
      refine decidable_of_iff
        (g.parent_session_id ≠ some "" ∧ g.forked_from_session_id ≠ some "") ?_
      constructor
      · intro h g' hg'
        cases hg'
        exact h
      · intro h
        exact h g rfl

instance (s : Session) : Decidable (isRootRecord s) := by
  unfold isRootRecord
  cases s.genealogy with
  | none => exact isTrue (by intro g h; cases h)
  | some g =>
      refine decidable_of_iff
        (g.parent_session_id = none ∧ g.forked_from_session_id = none) ?_
      constructor
      · intro h g' hg'
        cases hg'
        exact h
      · intro h
        exact h g rfl

/-- Two distinct root records that share one session id. -/
def dupRootA : Session := { session_id := "dup", description := "first" }

/-- A second root record with the same session id as dupRootA. -/
def dupRootB : Session := { session_id := "dup", description := "second" }

/-- A child session pointing at the shared id. -/
def dupChild : Session :=
  { session_id := "c", genealogy := some { parent_session_id := some "dup" } }

/-- A collection whose references all resolve and whose ancestor relation is
acyclic, but whose session ids are not pairwise distinct. -/
def dupSessions : List Session := [dupRootA, dupRootB, dupChild]

/-! ## C1 — two-phase reserve/commit in createWorktree -/

/-- C1 (counterexample): the claim says the (repository, name) and path
uniqueness check and the logical reservation happen before the external git
materialization is attempted.  On the state where (repo-1, feature-x) already
exists, a request for the very same name does not fail any uniqueness check:
the git operation is attempted and a second record with the identical
(repository, name) pair and identical path is committed, so no check or
reservation precedes (or follows) the git call. -/
theorem C1_counterexample_no_reserve_before_git :
    (ReposService.createWorktree dupState "repo-1" dupRequest true "t1").gitAttempted = true ∧
    (ReposService.createWorktree dupState "repo-1" dupRequest true "t1").result.isOk = true ∧
    (ReposService.createWorktree dupState "repo-1" dupRequest true "t1").state.worktrees.map
        (fun w => (w.repo_id, w.name, w.path)) =
      [("repo-1", "feature-x", getWorktreePath "acme" "feature-x"),
       ("repo-1", "feature-x", getWorktreePath "acme" "feature-x")] := by
  refine ⟨rfl, rfl, ?_⟩
  decide

/-- C1 (amended): createWorktree performs no uniqueness check and takes no
logical reservation at all; it attempts the external git materialization
first and writes the worktree record only after the git operation succeeds.
Consequently, when the git operation fails, the caller sees the wrapped
external error, no worktree record is committed, the record set is unchanged,
and a retry with the same name is not blocked: it succeeds as soon as the git
operation does. -/
theorem C1_amended_git_failure_leaves_state_unchanged (st : DaemonState)
    (id : String) (data : CreateWorktreeData) (now now' : String) (repo : Repo)
    (h : st.repos.find? (fun r => r.repo_id == id) = some repo) :
    (ReposService.createWorktree st id data false now).result =
        .error .ExternalOperationFailed ∧
    (ReposService.createWorktree st id data false now).state = st ∧
    (ReposService.createWorktree st id data true now').result.isOk = true := by
  refine ⟨?_, ?_, ?_⟩ <;> simp only [ReposService.createWorktree, h] <;> rfl

/-- C1 witness: the amended theorem applied at a concrete state. -/
theorem C1_witness :
    (ReposService.createWorktree dupState "repo-1" dupRequest false "t1").result =
        .error .ExternalOperationFailed ∧
    (ReposService.createWorktree dupState "repo-1" dupRequest false "t1").state = dupState ∧
    (ReposService.createWorktree dupState "repo-1" dupRequest true "t2").result.isOk = true :=
  C1_amended_git_failure_leaves_state_unchanged dupState "repo-1" dupRequest
    "t1" "t2" repoR1 (by decide)

/-! ## C6 — DuplicateWorktreeName on an existing (repository, name) -/

/-- C6 (counterexample): the claim says a create_worktree request for an
already-taken (repository, name) fails with DuplicateWorktreeName and leaves
the record set unchanged.  On the state where (repo-2, main) already exists,
the daemon-level request for the same name succeeds and the record set grows
to two records with that name. -/
theorem C6_counterexample_duplicate_name_succeeds :
    (ReposService.createWorktree dupState2 "repo-2" dupRequest2 true "t1").result.isOk = true ∧
    (ReposService.createWorktree dupState2 "repo-2" dupRequest2 true "t1").state.worktrees.map
        (fun w => (w.repo_id, w.name)) = [("repo-2", "main"), ("repo-2", "main")] := by
  refine ⟨rfl, ?_⟩
  decide

/-- C6 (amended): the daemon-level createWorktree enforces no (repository,
name) uniqueness — a duplicate request succeeds and commits a second record.
Only the CLI worktree-add command rejects a duplicate name, client-side and
before issuing the create request: when the repository already holds a
worktree with the requested name, the command errors, naming the existing
worktree path, and no create request is produced. -/
theorem C6_amended_cli_rejects_duplicate_name (repo : Repo) (name : String)
    (flags : WorktreeAddFlags) (w : Worktree)
    (hmanaged : repo.managed_by_agor = true)
    (hw : w ∈ repo.worktrees) (hname : w.name = name) :
    ∃ path, worktreeAddRun repo name flags = .error (.WorktreeExists name path) := by
  have hsome : (repo.worktrees.find? (fun x => x.name == name)).isSome := by
    rw [List.find?_isSome]
    exact ⟨w, hw, by simp [hname]⟩
  rcases Option.isSome_iff_exists.mp hsome with ⟨x, hx⟩
  refine ⟨x.path, ?_⟩
  simp only [worktreeAddRun, hmanaged, Bool.not_true, Bool.false_eq_true,
    if_false, hx]

/-- C6 witness: the CLI rejection applied at a concrete repository. -/
theorem C6_witness :
    ∃ path,
      worktreeAddRun { repoR1 with worktrees := [worktreeW1] } "feature-x" {} =
        .error (.WorktreeExists "feature-x" path) :=
  C6_amended_cli_rejects_duplicate_name _ "feature-x" {} worktreeW1 rfl
    (by decide) rfl

/-! ## C7 — repository slug uniqueness in cloneRepository -/

/-- C7: cloneRepository called with a slug that already names a repository
fails with the error identifying that slug, before the external clone is
performed and with the state unchanged; and the operation preserves slug
uniqueness of the repository records. -/
theorem C7_cloneRepository_slug_unique (st : DaemonState)
    (url slug : String) (cloneOk : Bool) (cloneResult : CloneResult)
    (newId : String) :
    ((∃ r ∈ st.repos, r.slug = slug) →
      (cloneRepository st url slug cloneOk cloneResult newId).result =
          .error (.slugExists slug) ∧
      (cloneRepository st url slug cloneOk cloneResult newId).state = st ∧
      (cloneRepository st url slug cloneOk cloneResult newId).cloneAttempted = false) ∧
    ((st.repos.map Repo.slug).Nodup →
      ((cloneRepository st url slug cloneOk cloneResult newId).state.repos.map
          Repo.slug).Nodup) := by
  constructor
  · intro hex
    have hsome : (st.repos.find? (fun r => r.slug == slug)).isSome := by
      rw [List.find?_isSome]
      rcases hex with ⟨r, hr, hslug⟩
      exact ⟨r, hr, by simp [hslug]⟩
    rcases Option.isSome_iff_exists.mp hsome with ⟨r, hr⟩
    refine ⟨?_, ?_, ?_⟩ <;> simp only [cloneRepository, findBySlug, hr]
  · intro hnodup
    cases hfind : st.repos.find? (fun r => r.slug == slug) with
    | some r => simpa only [cloneRepository, findBySlug, hfind] using hnodup
    | none =>
        cases cloneOk with
        | false => simpa only [cloneRepository, findBySlug, hfind] using hnodup
        | true =>
            simp only [cloneRepository, findBySlug, hfind]
            rw [if_pos trivial]
            simp only [List.map_append, List.map_cons, List.map_nil]
            rw [List.nodup_append]
            refine ⟨hnodup, List.nodup_singleton _, ?_⟩
            intro a ha hb
            simp only [List.mem_singleton] at hb
            subst hb
            rcases List.mem_map.mp ha with ⟨r, hr, hslug⟩
            have := List.find?_eq_none.mp hfind r hr
            simp [hslug] at this

/-- C7 witness: the theorem applied at a concrete state that already holds
the slug acme, with both hypotheses discharged. -/
theorem C7_witness :
    ((cloneRepository dupState "https://x.example/acme.git" "acme" true
        ⟨"/repos/acme", "acme", "main"⟩ "repo-9").result =
        .error (.slugExists "acme") ∧
      (cloneRepository dupState "https://x.example/acme.git" "acme" true
        ⟨"/repos/acme", "acme", "main"⟩ "repo-9").state = dupState ∧
      (cloneRepository dupState "https://x.example/acme.git" "acme" true
        ⟨"/repos/acme", "acme", "main"⟩ "repo-9").cloneAttempted = false) ∧
    ((cloneRepository dupState "https://x.example/acme.git" "acme" true
        ⟨"/repos/acme", "acme", "main"⟩ "repo-9").state.repos.map
        Repo.slug).Nodup :=
  ⟨(C7_cloneRepository_slug_unique dupState "https://x.example/acme.git" "acme"
      true ⟨"/repos/acme", "acme", "main"⟩ "repo-9").1
      ⟨repoR1, by decide, rfl⟩,
   (C7_cloneRepository_slug_unique dupState "https://x.example/acme.git" "acme"
      true ⟨"/repos/acme", "acme", "main"⟩ "repo-9").2 (by decide)⟩

/-! ## C10 — fields of a successfully created worktree -/

/-- C10: every successful createWorktree call returns a worktree record whose
repo_id is the resolved repository id, whose name and ref come from the
request, whose base_ref is the source branch, whose new_branch defaults to
false, whose path is getWorktreePath of the repo slug and requested name, and
whose session list is empty; the record is appended to the store. -/
theorem C10_createWorktree_fields (st : DaemonState) (id : String)
    (data : CreateWorktreeData) (now : String) (repo : Repo)
    (h : st.repos.find? (fun r => r.repo_id == id) = some repo) :
    ∃ wt,
      (ReposService.createWorktree st id data true now).result = .ok wt ∧
      (ReposService.createWorktree st id data true now).state.worktrees =
          st.worktrees ++ [wt] ∧
      wt.repo_id = repo.repo_id ∧
      wt.name = data.name ∧
      wt.ref = data.ref ∧
      wt.base_ref = data.sourceBranch ∧
      wt.new_branch = data.createBranch.getD false ∧
      wt.path = getWorktreePath repo.slug data.name ∧
      wt.sessions = [] := by
  refine ⟨{ repo_id := repo.repo_id, name := data.name
            path := getWorktreePath repo.slug data.name
            ref := data.ref, base_ref := data.sourceBranch
            new_branch := data.createBranch.getD false
            worktree_unique_id := autoAssignWorktreeUniqueId st.worktrees
            sessions := [], last_used := now },
         ?_, ?_, rfl, rfl, rfl, rfl, rfl, rfl, rfl⟩ <;>
  · simp only [ReposService.createWorktree, h]
    rw [if_pos trivial]

/-- C10 witness: the theorem applied at a concrete state and request. -/
theorem C10_witness :
    ∃ wt,
      (ReposService.createWorktree dupState "repo-1"
          { name := "wt-new", ref := "main" } true "t3").result = .ok wt ∧
      (ReposService.createWorktree dupState "repo-1"
          { name := "wt-new", ref := "main" } true "t3").state.worktrees =
          dupState.worktrees ++ [wt] ∧
      wt.repo_id = repoR1.repo_id ∧
      wt.name = ({ name := "wt-new", ref := "main" } : CreateWorktreeData).name ∧
      wt.ref = ({ name := "wt-new", ref := "main" } : CreateWorktreeData).ref ∧
      wt.base_ref = ({ name := "wt-new", ref := "main" } : CreateWorktreeData).sourceBranch ∧
      wt.new_branch = ({ name := "wt-new", ref := "main" } : CreateWorktreeData).createBranch.getD false ∧
      wt.path = getWorktreePath repoR1.slug "wt-new" ∧
      wt.sessions = [] :=
  C10_createWorktree_fields dupState "repo-1" { name := "wt-new", ref := "main" }
    "t3" repoR1 (by decide)

/-! ## C3 — fork and spawn pointers are mutually exclusive -/

/-- C3: in every state reachable through the genealogy creation operations,
and in the mock session records the UI consumes, no session carries both a
fork pointer and a spawn pointer: a session is a fork, a spawn, or a root,
never a fork and a spawn at once. -/
theorem C3_fork_spawn_mutually_exclusive :
    (∀ st, GenealogyReachable st → ∀ s ∈ st, mutuallyExclusiveAncestry s) ∧
    mutuallyExclusiveAncestry mockSessionA ∧
    mutuallyExclusiveAncestry mockSessionB ∧
    mutuallyExclusiveAncestry mockSessionC := by
  refine ⟨?_, by decide, by decide, by decide⟩
  intro st hreach
  induction hreach with
  | empty => intro s hs; cases hs
  | create st sid agent _ ih =>
      intro s hs
      unfold createSession at hs
      rcases List.mem_append.mp hs with h | h
      · exact ih s h
      · rcases List.mem_singleton.mp h with rfl
        intro g hg
        cases hg
        exact Or.inl rfl
  | fork st st' srcId taskId newId _ hok ih =>
      intro s hs
      unfold forkSession at hok
      split at hok
      · cases hok
      · split at hok
        · cases hok
          rcases List.mem_append.mp hs with h | h
          · exact ih s h
          · rcases List.mem_singleton.mp h with rfl
            intro g hg
            cases hg
            exact Or.inr rfl
        · cases hok
  | spawn st st' parentId taskId newId agent _ hok ih =>
      intro s hs
      unfold spawnSession at hok
      split at hok
      · cases hok
      · split at hok
        · cases hok
          rcases List.mem_append.mp hs with h | h
          · exact ih s h
          · rcases List.mem_singleton.mp h with rfl
            intro g hg
            cases hg
            exact Or.inl rfl
        · cases hok

/-- C3 witness: the invariant read off a concrete reachable state. -/
theorem C3_witness :
    ∀ s ∈ createSession (createSession [] "root-1" "claude-code") "root-2" "codex",
      mutuallyExclusiveAncestry s :=
  C3_fork_spawn_mutually_exclusive.1
    (createSession (createSession [] "root-1" "claude-code") "root-2" "codex")
    (.create _ "root-2" "codex" (.create _ "root-1" "claude-code" .empty))

/-! ## C4 — task status state machine -/

/-- C4: task statuses only move along created → running → completed and
created → running → failed; completed and failed are terminal (only a report
attachment is accepted there, leaving the status unchanged), and every other
attempted status transition is rejected with InvalidTransition. -/
theorem C4_task_state_machine (t : TaskRec) :
    (∀ t', markRunning t = .ok t' → t.status = .created ∧ t'.status = .running) ∧
    (∀ t' e, completeTask t e = .ok t' → t.status = .running ∧ t'.status = .completed) ∧
    (∀ t', failTask t = .ok t' → t.status = .running ∧ t'.status = .failed) ∧
    (∀ t' r, attachReport t r = .ok t' →
      t.status.isTerminal = true ∧ t'.status = t.status) ∧
    (t.status ≠ .created → markRunning t = .error .InvalidTransition) ∧
    (t.status ≠ .running → ∀ e, completeTask t e = .error .InvalidTransition) ∧
    (t.status ≠ .running → failTask t = .error .InvalidTransition) ∧
    (t.status.isTerminal = false → ∀ r, attachReport t r = .error .TaskNotTerminal) := by
  obtain ⟨tid, status, si, ei, rep⟩ := t
  cases status <;>
    refine ⟨fun t' h => ?_, fun t' e h => ?_, fun t' h => ?_, fun t' r h => ?_,
      fun hne => ?_, fun hne e => ?_, fun hne => ?_, fun hnt r => ?_⟩ <;>
    simp_all [markRunning, completeTask, failTask, attachReport,
      TaskStatus.isTerminal] <;>
    first
    | (rcases h with ⟨rfl, rfl⟩; simp)
    | (split at h <;> first | (cases h; simp) | simp_all)

/-- C4 witness: the state machine facts at concrete tasks — a created task
moves to running, and a completed task accepts no further status transition
but does accept a report. -/
theorem C4_witness :
    (({ task_id := "t-a", start_index := 0 } : TaskRec).status = .created ∧
      ({ task_id := "t-a", start_index := 0, status := .running } : TaskRec).status = .running) ∧
    markRunning { task_id := "t-b", start_index := 0, status := .completed } =
        .error .InvalidTransition ∧
    completeTask { task_id := "t-b", start_index := 0, status := .completed } 7 =
        .error .InvalidTransition ∧
    failTask { task_id := "t-b", start_index := 0, status := .completed } =
        .error .InvalidTransition ∧
    attachReport { task_id := "t-c", start_index := 0, status := .running } "r-1" =
        .error .TaskNotTerminal :=
  ⟨(C4_task_state_machine { task_id := "t-a", start_index := 0 }).1
      { task_id := "t-a", start_index := 0, status := .running } rfl,
   (C4_task_state_machine { task_id := "t-b", start_index := 0, status := .completed }).2.2.2.2.1
      (by decide),
   (C4_task_state_machine { task_id := "t-b", start_index := 0, status := .completed }).2.2.2.2.2.1
      (by decide) 7,
   (C4_task_state_machine { task_id := "t-b", start_index := 0, status := .completed }).2.2.2.2.2.2.1
      (by decide),
   (C4_task_state_machine { task_id := "t-c", start_index := 0, status := .running }).2.2.2.2.2.2.2
      (by decide) "r-1"⟩

/-! ## C5 — task message ranges are strictly increasing -/

/-- markRunning only changes the status. -/
theorem markRunning_preserves_range (t t' : TaskRec)
    (h : markRunning t = .ok t') :
    t'.start_index = t.start_index ∧ t'.end_index = t.end_index := by
  unfold markRunning at h
  split at h
  · injection h with h
    subst h
    exact ⟨rfl, rfl⟩
  · cases h

/-- failTask only changes the status. -/
theorem failTask_preserves_range (t t' : TaskRec)
    (h : failTask t = .ok t') :
    t'.start_index = t.start_index ∧ t'.end_index = t.end_index := by
  unfold failTask at h
  split at h
  · injection h with h
    subst h
    exact ⟨rfl, rfl⟩
  · cases h

/-- attachReport only changes the report reference. -/
theorem attachReport_preserves_range (t t' : TaskRec) (r : String)
    (h : attachReport t r = .ok t') :
    t'.start_index = t.start_index ∧ t'.end_index = t.end_index := by
  unfold attachReport at h
  split at h
  · injection h with h
    subst h
    exact ⟨rfl, rfl⟩
  · cases h

/-- A successful completeTask keeps the start index, sets the end index, and
only accepts an end index at or past the start. -/
theorem completeTask_ok (t : TaskRec) (e : Nat) (t' : TaskRec)
    (h : completeTask t e = .ok t') :
    t'.start_index = t.start_index ∧ t'.end_index = some e ∧
      t.start_index ≤ e := by
  unfold completeTask at h
  split at h
  · split at h
    · cases h
    · injection h with h
      subst h
      exact ⟨rfl, rfl, Nat.not_lt.mp (by assumption)⟩
  · cases h

/-- mapTaskById with a range-preserving transition relates input and output
pointwise: every task keeps its start and end index. -/
theorem mapTaskById_forall2 (f : TaskRec → Except EngineError TaskRec)
    (hf : ∀ t t', f t = .ok t' →
      t'.start_index = t.start_index ∧ t'.end_index = t.end_index) :
    ∀ ts tid ts', mapTaskById f ts tid = .ok ts' →
      List.Forall₂
        (fun a b => b.start_index = a.start_index ∧ b.end_index = a.end_index)
        ts ts' := by
  intro ts
  induction ts with
  | nil =>
      intro tid ts' h
      cases h
  | cons t rest ih =>
      intro tid ts' h
      simp only [mapTaskById] at h
      split at h
      · cases hft : f t with
        | error e =>
            rw [hft] at h
            cases h
        | ok t' =>
            rw [hft] at h
            simp only [Except.map] at h
            injection h with h
            subst h
            exact .cons (hf t t' hft)
              (List.forall₂_same.mpr fun x _ => ⟨rfl, rfl⟩)
      · cases hrec : mapTaskById f rest tid with
        | error e =>
            rw [hrec] at h
            cases h
        | ok rest' =>
            rw [hrec] at h
            simp only [Except.map] at h
            injection h with h
            subst h
            exact .cons ⟨rfl, rfl⟩ (ih tid rest' hrec)

/-- The range-ordering invariant transfers along pointwise range equality. -/
theorem rangesOrdered_of_forall2 (ts ts' : List TaskRec)
    (hf : List.Forall₂
      (fun a b => b.start_index = a.start_index ∧ b.end_index = a.end_index)
      ts ts')
    (hord : rangesOrdered ts) : rangesOrdered ts' := by
  induction hf with
  | nil => exact List.chain'_nil
  | @cons a b l l' hab htail ih =>
      rw [rangesOrdered, List.chain'_cons'] at *
      refine ⟨?_, ih hord.2⟩
      intro y hy
      cases htail with
      | nil => cases hy
      | @cons c d m m' hcd _ =>
          simp only [List.head?_cons, Option.mem_def, Option.some.injEq] at hy
          subst hy
          have h1 := hord.1 c (by simp)
          have hb : effectiveEnd b = effectiveEnd a := by
            unfold effectiveEnd
            rw [hab.1, hab.2]
          rw [hcd.1, hb]
          exact h1

/-- beginTask preserves the range-ordering invariant. -/
theorem beginTask_ordered (ts : List TaskRec) (tid : String)
    (startIndex : Nat) (ts' : List TaskRec)
    (h : beginTask ts tid startIndex = .ok ts') (hord : rangesOrdered ts) :
    rangesOrdered ts' := by
  unfold beginTask at h
  split at h
  case h_1 last hlast =>
    split at h
    · cases h
    · injection h with h
      subst h
      rw [rangesOrdered, List.chain'_append]
      refine ⟨hord, List.chain'_singleton _, ?_⟩
      intro x hx y hy
      rw [Option.mem_def, hlast, Option.some.injEq] at hx
      subst hx
      simp only [List.head?_cons, Option.mem_def, Option.some.injEq] at hy
      subst hy
      exact Nat.not_le.mp (by assumption)
  case h_2 hlast =>
    injection h with h
    subst h
    rw [List.getLast?_eq_none_iff] at hlast
    subst hlast
    exact List.chain'_singleton _

/-- completeTaskInSession keeps every start index in place. -/
theorem completeTaskInSession_starts :
    ∀ ts tid e ts', completeTaskInSession ts tid e = .ok ts' →
      List.Forall₂ (fun a b => b.start_index = a.start_index) ts ts' := by
  intro ts
  induction ts with
  | nil =>
      intro tid e ts' h
      cases h
  | cons t rest ih =>
      intro tid e ts' h
      simp only [completeTaskInSession] at h
      split at h
      · split at h
        · cases h
        case h_2 t' hct =>
          split at h
          · injection h with h
            subst h
            exact .cons (completeTask_ok t e t' hct).1 .nil
          · split at h
            · cases h
            · injection h with h
              subst h
              exact .cons (completeTask_ok t e t' hct).1
                (List.forall₂_same.mpr fun x _ => rfl)
      · cases hrec : completeTaskInSession rest tid e with
        | error err =>
            rw [hrec] at h
            cases h
        | ok rest' =>
            rw [hrec] at h
            simp only [Except.map] at h
            injection h with h
            subst h
            exact .cons rfl (ih tid e rest' hrec)

/-- completeTaskInSession preserves the range-ordering invariant: the new end
index is validated against both its own start and the next task start. -/
theorem completeTaskInSession_ordered :
    ∀ ts tid e ts', completeTaskInSession ts tid e = .ok ts' →
      rangesOrdered ts → rangesOrdered ts' := by
  intro ts
  induction ts with
  | nil =>
      intro tid e ts' h _
      cases h
  | cons t rest ih =>
      intro tid e ts' h hord
      rw [rangesOrdered, List.chain'_cons'] at hord
      simp only [completeTaskInSession] at h
      split at h
      · split at h
        · cases h
        case h_2 t' hct =>
          split at h
          · injection h with h
            subst h
            exact List.chain'_singleton _
          case h_2 nxt m =>
            split at h
            · cases h
            · injection h with h
              subst h
              rw [rangesOrdered, List.chain'_cons']
              refine ⟨?_, hord.2⟩
              intro y hy
              simp only [List.head?_cons, Option.mem_def, Option.some.injEq] at hy
              subst hy
              have he : effectiveEnd t' = e := by
                unfold effectiveEnd
                rw [(completeTask_ok t e t' hct).2.1]
                rfl
              rw [he]
              exact Nat.not_le.mp (by assumption)
      · cases hrec : completeTaskInSession rest tid e with
        | error err =>
            rw [hrec] at h
            cases h
        | ok rest' =>
            rw [hrec] at h
            simp only [Except.map] at h
            injection h with h
            subst h
            rw [rangesOrdered, List.chain'_cons']
            refine ⟨?_, ih tid e rest' hrec hord.2⟩
            intro y hy
            have hst := completeTaskInSession_starts rest tid e rest' hrec
            cases hst with
            | nil => cases hy
            | @cons c d m m' hcd _ =>
                simp only [List.head?_cons, Option.mem_def,
                  Option.some.injEq] at hy
                subst hy
                rw [hcd]
                exact hord.1 c (by simp)

/-- Every reachable task list satisfies the range-ordering invariant. -/
theorem tasksReachable_ordered (ts : List TaskRec) (h : TasksReachable ts) :
    rangesOrdered ts := by
  induction h with
  | empty => exact List.chain'_nil
  | begin ts ts' tid si _ hok ih => exact beginTask_ordered ts tid si ts' hok ih
  | run ts ts' tid _ hok ih =>
      exact rangesOrdered_of_forall2 ts ts'
        (mapTaskById_forall2 markRunning markRunning_preserves_range ts tid ts' hok) ih
  | complete ts ts' tid e _ hok ih =>
      exact completeTaskInSession_ordered ts tid e ts' hok ih
  | fail ts ts' tid _ hok ih =>
      exact rangesOrdered_of_forall2 ts ts'
        (mapTaskById_forall2 failTask failTask_preserves_range ts tid ts' hok) ih
  | report ts ts' tid reportRef _ hok ih =>
      exact rangesOrdered_of_forall2 ts ts'
        (mapTaskById_forall2 (attachReport · reportRef)
          (fun t t' h => attachReport_preserves_range t t' reportRef h)
          ts tid ts' hok) ih

/-- C5: in every reachable task history of a session, message ranges ordered
by creation are strictly increasing and non-overlapping — a task end index,
once set, lies strictly before the next task start index — and begin_task is
rejected with NonMonotonicRange whenever the requested start index is at or
below the last task end index. -/
theorem C5_task_ranges_strictly_increasing :
    (∀ ts, TasksReachable ts → ∀ i e (h : i + 1 < ts.length),
        (ts.get ⟨i, Nat.lt_of_succ_lt h⟩).end_index = some e →
        e < (ts.get ⟨i + 1, h⟩).start_index) ∧
    (∀ ts tid startIndex last e, ts.getLast? = some last →
        last.end_index = some e → startIndex ≤ e →
        beginTask ts tid startIndex = .error .NonMonotonicRange) := by
  constructor
  · intro ts hreach i e h hend
    have hord := tasksReachable_ordered ts hreach
    rw [rangesOrdered, List.chain'_iff_get] at hord
    have hi := hord i (by omega)
    unfold effectiveEnd at hi
    rw [hend] at hi
    exact hi
  · intro ts tid startIndex last e hlast hend hle
    have he : effectiveEnd last = e := by
      unfold effectiveEnd
      rw [hend]
      rfl
    simp only [beginTask, hlast]
    rw [if_pos]
    rw [he]
    exact hle

/-- sampleTasks is reachable through the engine operations. -/
theorem sampleTasks_reachable : TasksReachable sampleTasks :=
  .begin
    [{ task_id := "t-1", status := .completed, start_index := 0, end_index := some 2 }]
    sampleTasks "t-2" 3
    (.complete
      [{ task_id := "t-1", status := .running, start_index := 0 }]
      [{ task_id := "t-1", status := .completed, start_index := 0, end_index := some 2 }]
      "t-1" 2
      (.run
        [{ task_id := "t-1", start_index := 0 }]
        [{ task_id := "t-1", status := .running, start_index := 0 }]
        "t-1"
        (.begin [] [{ task_id := "t-1", start_index := 0 }] "t-1" 0 .empty
          (by decide))
        (by decide))
      (by decide))
    (by decide)

/-- C5 witness: the invariant read off the concrete reachable history, and a
concrete begin_task rejection. -/
theorem C5_witness :
    (2 : Nat) < (sampleTasks.get ⟨1, by decide⟩).start_index ∧
    beginTask [{ task_id := "t-1", status := .completed, start_index := 0,
                 end_index := some 2 }] "t-3" 1 = .error .NonMonotonicRange :=
  ⟨C5_task_ranges_strictly_increasing.1 sampleTasks sampleTasks_reachable 0 2
      (by decide) (by decide),
   C5_task_ranges_strictly_increasing.2
      [{ task_id := "t-1", status := .completed, start_index := 0,
         end_index := some 2 }] "t-3" 1
      { task_id := "t-1", status := .completed, start_index := 0,
        end_index := some 2 } 2 rfl rfl (by decide)⟩

/-! ## C2 — broken ancestor chains in buildSessionTree -/

/-- Membership in a flattened forest built by mapping a node constructor. -/
theorem flattenForest_map_mem (g : Session → SessionTreeNode) :
    ∀ (l : List Session) (x : Session),
      x ∈ flattenForest (l.map g) ↔ ∃ c ∈ l, x ∈ flattenNode (g c) := by
  intro l
  induction l with
  | nil => simp [flattenForest]
  | cons c cs ih =>
      intro x
      simp only [List.map_cons, flattenForest, List.mem_append, ih, List.mem_cons]
      constructor
      · rintro (h | ⟨d, hd, hxd⟩)
        · exact ⟨c, Or.inl rfl, h⟩
        · exact ⟨d, Or.inr hd, hxd⟩
      · rintro ⟨d, hd | hd, hxd⟩
        · subst hd
          exact Or.inl hxd
        · exact Or.inr ⟨d, hd, hxd⟩

/-- Every session in a subtree rooted at a store member is either the root of
that subtree or carries an ancestor pointer that names the id of some session
in the store. -/
theorem mem_subtree_parent_resolves (sessions : List Session) :
    ∀ fuel u, u ∈ sessions →
      ∀ x ∈ flattenNode (buildNode sessions fuel u),
        x = u ∨ ∃ pid, parentRefOf x = some pid ∧
          pid ∈ sessions.map Session.session_id := by
  intro fuel
  induction fuel with
  | zero =>
      intro u _ x hx
      simp only [buildNode, flattenNode, flattenForest] at hx
      rcases List.mem_singleton.mp hx with rfl
      exact Or.inl rfl
  | succ fuel ih =>
      intro u hu x hx
      simp only [buildNode, flattenNode] at hx
      rcases List.mem_cons.mp hx with rfl | hx
      · exact Or.inl rfl
      · rcases (flattenForest_map_mem _ _ x).mp hx with ⟨c, hc, hxc⟩
        have hcmem : c ∈ sessions ∧ parentRefOf c = some u.session_id := by
          simpa [childrenOf, List.mem_filter] using hc
        rcases ih c hcmem.1 x hxc with rfl | hres
        · exact Or.inr ⟨u.session_id, hcmem.2, List.mem_map_of_mem _ hu⟩
        · exact Or.inr hres

/-- C2 (counterexample): the claim says a session whose ancestor pointer
names a missing session is reported as a flagged OrphanedGenealogy result and
never silently omitted.  buildSessionTree has no flagged result at all, and
on the one-session collection whose ancestor pointer dangles it returns the
empty forest: the session is silently dropped. -/
theorem C2_counterexample_orphan_dropped :
    parentRefOf orphanSession = some "s-missing" ∧
    (∀ t ∈ [orphanSession], t.session_id ≠ "s-missing") ∧
    buildSessionTree [orphanSession] = [] :=
  ⟨rfl, by decide, rfl⟩

/-- C2 (amended): buildSessionTree silently omits every session whose chosen
ancestor pointer names an id with no session in the collection — the session
appears nowhere in the returned forest, and no OrphanedGenealogy flag or any
other signal is produced. -/
theorem C2_amended_orphans_silently_dropped (sessions : List Session)
    (s : Session) (p : String) (href : parentRefOf s = some p)
    (hmissing : ∀ t ∈ sessions, t.session_id ≠ p) :
    s ∉ flattenForest (buildSessionTree sessions) := by
  intro hmem
  unfold buildSessionTree at hmem
  rcases (flattenForest_map_mem _ _ s).mp hmem with ⟨r, hr, hsr⟩
  obtain ⟨hrmem, hrroot⟩ : r ∈ sessions ∧ parentRefOf r = none := by
    simpa [List.mem_filter] using hr
  rcases mem_subtree_parent_resolves sessions sessions.length r hrmem s hsr with
    rfl | ⟨pid, hpid, hin⟩
  · rw [href] at hrroot
    cases hrroot
  · rw [href] at hpid
    injection hpid with hpid
    subst hpid
    rcases List.mem_map.mp hin with ⟨t, ht, hid⟩
    exact hmissing t ht hid

/-- C2 witness: the amended omission fact at the concrete orphan session. -/
theorem C2_witness :
    orphanSession ∉ flattenForest (buildSessionTree [orphanSession]) :=
  C2_amended_orphans_silently_dropped [orphanSession] orphanSession
    "s-missing" rfl (by decide)

/-! ## C8 — fork round trip through ancestry queries and the session tree -/

/-- One unfolding step of the ancestor walk. -/
theorem ancestorsAux_step (sessions : List Session) (k : Nat) (s : Session) :
    ancestorsAux sessions (k + 1) s =
      match parentSessionOf sessions s with
      | none => []
      | some p => ancestorsAux sessions k p ++ [p] := rfl

/-- The ancestor walk stops at a session with no ancestor. -/
theorem ancestorsAux_succ_none (sessions : List Session) (k : Nat) (s : Session)
    (h : parentSessionOf sessions s = none) :
    ancestorsAux sessions (k + 1) s = [] := by
  rw [ancestorsAux_step, h]

/-- The ancestor walk recurses through the ancestor. -/
theorem ancestorsAux_succ_some (sessions : List Session) (k : Nat)
    (s p : Session) (h : parentSessionOf sessions s = some p) :
    ancestorsAux sessions (k + 1) s = ancestorsAux sessions k p ++ [p] := by
  rw [ancestorsAux_step, h]

/-- One unfolding step of the descendant walk. -/
theorem descendantsAux_succ (sessions : List Session) (k : Nat) (sid : String) :
    descendantsAux sessions (k + 1) sid =
      (directChildren sessions sid).flatMap
        (fun c => c :: descendantsAux sessions k c.session_id) := rfl

/-- One unfolding step of buildNode. -/
theorem buildNode_succ (sessions : List Session) (k : Nat) (s : Session) :
    buildNode sessions (k + 1) s =
      .node s ((childrenOf sessions s.session_id).map (buildNode sessions k)) :=
  rfl

/-- C8: forking a root session A at a task T of A yields a session B for
which the round trip holds — forkSession on the store [A] succeeds and
appends B; get_ancestors of B returns exactly [A]; get_descendants of A
contains B; and buildSessionTree places B as the only child of the root A. -/
theorem C8_fork_round_trip (A : Session) (T newId : String)
    (hroot : isRootRecord A) (hT : T ∈ A.tasks)
    (hne : A.session_id ≠ newId) (hA : A.session_id ≠ "") :
    forkSession [A] A.session_id T newId = .ok [A, forkedSession A T newId] ∧
    getAncestors [A, forkedSession A T newId] (forkedSession A T newId) = [A] ∧
    forkedSession A T newId ∈
      getDescendants [A, forkedSession A T newId] A.session_id ∧
    buildSessionTree [A, forkedSession A T newId] =
      [.node A [.node (forkedSession A T newId) []]] := by
  set B := forkedSession A T newId with hB
  have hfind : findSessionById [A, B] A.session_id = some A := by
    unfold findSessionById
    rw [List.find?_cons_of_pos _ (by simp)]
  have hfind1 : findSessionById [A] A.session_id = some A := by
    unfold findSessionById
    rw [List.find?_cons_of_pos _ (by simp)]
  have hprA : parentRefOf A = none := by
    unfold parentRefOf
    cases hg : A.genealogy with
    | none => rfl
    | some g =>
        rcases hroot g hg with ⟨h1, h2⟩
        simp [strTruthy, h1, h2, Option.orElse]
  have hprB : parentRefOf B = some A.session_id := by
    simp [hB, forkedSession, parentRefOf, strTruthy, Option.orElse, hA]
  have hpsA : parentSessionOf [A, B] A = none := by
    unfold parentSessionOf
    cases hg : A.genealogy with
    | none => rfl
    | some g =>
        rcases hroot g hg with ⟨h1, h2⟩
        simp [h1, h2, Option.orElse]
  have hpsB : parentSessionOf [A, B] B = some A := by
    unfold parentSessionOf
    simp only [hB, forkedSession, Option.orElse]
    exact hfind
  have hptA : ∀ sid, pointsTo A sid = false := by
    intro sid
    unfold pointsTo
    cases hg : A.genealogy with
    | none => rfl
    | some g =>
        rcases hroot g hg with ⟨h1, h2⟩
        simp [h1, h2]
  have hptBA : pointsTo B A.session_id = true := by
    simp [hB, forkedSession, pointsTo]
  have hptBn : pointsTo B newId = false := by
    simp [hB, forkedSession, pointsTo, hne]
  refine ⟨?_, ?_, ?_, ?_⟩
  · unfold forkSession
    rw [hfind1]
    show (if T ∈ A.tasks then
        Except.ok ([A] ++ [forkedSession A T newId])
      else Except.error EngineError.TaskNotFound) = Except.ok [A, B]
    rw [if_pos hT]
    rfl
  · unfold getAncestors
    simp only [List.length_cons, List.length_nil]
    rw [ancestorsAux_succ_some [A, B] _ B A hpsB,
      ancestorsAux_succ_none [A, B] _ A hpsA]
    rfl
  · unfold getDescendants
    simp only [List.length_cons, List.length_nil]
    rw [descendantsAux_succ]
    have hdcA : directChildren [A, B] A.session_id = [B] := by
      unfold directChildren
      rw [List.filter_cons_of_neg (by simp [hptA]),
        List.filter_cons_of_pos (by simp [hptBA])]
      rfl
    rw [hdcA]
    simp
  · unfold buildSessionTree
    have hroots : ([A, B] : List Session).filter (fun s => parentRefOf s == none) = [A] := by
      rw [List.filter_cons_of_pos (by simp [hprA]),
        List.filter_cons_of_neg (by simp [hprB])]
      rfl
    have hcA : childrenOf [A, B] A.session_id = [B] := by
      unfold childrenOf
      rw [List.filter_cons_of_neg (by simp [hprA]),
        List.filter_cons_of_pos (by simp [hprB])]
      rfl
    have hBid : B.session_id = newId := rfl
    have hcB : childrenOf [A, B] B.session_id = [] := by
      unfold childrenOf
      rw [List.filter_cons_of_neg (by simp [hprA]),
        List.filter_cons_of_neg (by simp [hprB, hBid, hne])]
      rfl
    rw [hroots]
    simp only [List.length_cons, List.length_nil, List.map_cons, List.map_nil]
    rw [buildNode_succ, hcA]
    simp only [List.map_cons, List.map_nil]
    rw [buildNode_succ, hcB]
    rfl

/-- C8 witness: the round trip at a concrete root session and fork. -/
theorem C8_witness :
    forkSession [rootSessionR] "s-root" "t-1" "s-fork" =
      .ok [rootSessionR, forkedSession rootSessionR "t-1" "s-fork"] ∧
    getAncestors [rootSessionR, forkedSession rootSessionR "t-1" "s-fork"]
      (forkedSession rootSessionR "t-1" "s-fork") = [rootSessionR] ∧
    forkedSession rootSessionR "t-1" "s-fork" ∈
      getDescendants [rootSessionR, forkedSession rootSessionR "t-1" "s-fork"]
        "s-root" ∧
    buildSessionTree [rootSessionR, forkedSession rootSessionR "t-1" "s-fork"] =
      [.node rootSessionR [.node (forkedSession rootSessionR "t-1" "s-fork") []]] := by
  have h := C8_fork_round_trip rootSessionR "t-1" "s-fork"
    (by intro g hg; cases hg; exact ⟨rfl, rfl⟩)
    (by decide) (by decide) (by decide)
  exact h

/-! ## C9 — buildSessionTree on well-formed inputs -/

/-- One unfolding step of the ancestor iteration. -/
theorem ancIter_succ (sessions : List Session) (k : Nat) (s : Session) :
    ancIter sessions (k + 1) s =
      match parentStep sessions s with
      | none => none
      | some v => ancIter sessions k v := rfl

/-- The iteration dies at a session whose pointer does not resolve. -/
theorem ancIter_succ_none (sessions : List Session) (k : Nat) (s : Session)
    (h : parentStep sessions s = none) :
    ancIter sessions (k + 1) s = none := by
  rw [ancIter_succ, h]

/-- The iteration walks through a resolving pointer. -/
theorem ancIter_succ_some (sessions : List Session) (k : Nat) (s v : Session)
    (h : parentStep sessions s = some v) :
    ancIter sessions (k + 1) s = ancIter sessions k v := by
  rw [ancIter_succ, h]

/-- One iteration step is exactly the parent step. -/
theorem ancIter_one (sessions : List Session) (s : Session) :
    ancIter sessions 1 s = parentStep sessions s := by
  rw [show (1 : Nat) = 0 + 1 from rfl, ancIter_succ]
  cases parentStep sessions s <;> rfl

/-- Splitting an ancestor walk: walk a steps, then b more. -/
theorem ancIter_add (sessions : List Session) :
    ∀ a b s, ancIter sessions (a + b) s =
      (ancIter sessions a s).bind (ancIter sessions b) := by
  intro a
  induction a with
  | zero =>
      intro b s
      rw [Nat.zero_add]
      rfl
  | succ a ih =>
      intro b s
      rw [Nat.succ_add]
      cases hps : parentStep sessions s with
      | none =>
          rw [ancIter_succ_none sessions _ s hps,
            ancIter_succ_none sessions a s hps]
          rfl
      | some v =>
          rw [ancIter_succ_some sessions _ s v hps,
            ancIter_succ_some sessions a s v hps, ih]

/-- Peeling the last step of an ancestor walk. -/
theorem ancIter_succ_top (sessions : List Session) (k : Nat) (s : Session) :
    ancIter sessions (k + 1) s =
      (ancIter sessions k s).bind (parentStep sessions) := by
  rw [ancIter_add sessions k 1 s]
  cases ancIter sessions k s with
  | none => rfl
  | some w =>
      show ancIter sessions 1 w = parentStep sessions w
      exact ancIter_one sessions w

/-- A resolving parent step pins the pointer and places the parent in the
store. -/
theorem parentStep_some (sessions : List Session) (s u : Session)
    (h : parentStep sessions s = some u) :
    parentRefOf s = some u.session_id ∧ u ∈ sessions := by
  unfold parentStep at h
  cases hpr : parentRefOf s with
  | none =>
      rw [hpr] at h
      cases h
  | some p =>
      rw [hpr] at h
      unfold findSessionById at h
      have hmem := List.mem_of_find?_eq_some h
      have hid := List.find?_some h
      rw [beq_iff_eq] at hid
      exact ⟨by rw [hid], hmem⟩

/-- Every ancestor of a session is the session itself or a store member. -/
theorem ancIter_mem (sessions : List Session) :
    ∀ k s w, ancIter sessions k s = some w → w = s ∨ w ∈ sessions := by
  intro k
  induction k with
  | zero =>
      intro s w h
      injection h with h
      exact Or.inl h.symm
  | succ k ih =>
      intro s w h
      cases hps : parentStep sessions s with
      | none =>
          rw [ancIter_succ_none sessions k s hps] at h
          cases h
      | some v =>
          rw [ancIter_succ_some sessions k s v hps] at h
          rcases ih v w h with rfl | hw
          · exact Or.inr (parentStep_some sessions s w hps).2
          · exact Or.inr hw

/-- With pairwise-distinct ids, looking up a member by its own id returns the
member. -/
theorem findSessionById_self (sessions : List Session) (u : Session)
    (hids : (sessions.map Session.session_id).Nodup) (hu : u ∈ sessions) :
    findSessionById sessions u.session_id = some u := by
  induction sessions with
  | nil => cases hu
  | cons v rest ih =>
      rw [List.map_cons, List.nodup_cons] at hids
      rcases List.mem_cons.mp hu with rfl | hu'
      · unfold findSessionById
        rw [List.find?_cons_of_pos _ (by simp)]
      · have hvne : (v.session_id == u.session_id) = false := by
          rw [beq_eq_false_iff_ne]
          intro he
          apply hids.1
          rw [he]
          exact List.mem_map_of_mem _ hu'
        simp only [findSessionById, List.find?]
        rw [hvne]
        exact ih hids.2 hu'

/-- Children of an id are the store members whose chosen pointer names it. -/
theorem mem_childrenOf (sessions : List Session) (pid : String) (c : Session) :
    c ∈ childrenOf sessions pid ↔ c ∈ sessions ∧ parentRefOf c = some pid := by
  unfold childrenOf
  rw [List.mem_filter]
  simp

/-- Every session of a subtree rooted at a store member is a store member. -/
theorem mem_subtree_mem (sessions : List Session) :
    ∀ fuel u, u ∈ sessions →
      ∀ x ∈ flattenNode (buildNode sessions fuel u), x ∈ sessions := by
  intro fuel
  induction fuel with
  | zero =>
      intro u hu x hx
      simp only [buildNode, flattenNode, flattenForest] at hx
      rcases List.mem_singleton.mp hx with rfl
      exact hu
  | succ fuel ih =>
      intro u hu x hx
      simp only [buildNode, flattenNode] at hx
      rcases List.mem_cons.mp hx with rfl | hx
      · exact hu
      · rcases (flattenForest_map_mem _ _ x).mp hx with ⟨c, hc, hxc⟩
        exact ih c ((mem_childrenOf sessions u.session_id c).mp hc).1 x hxc

/-- buildNode keeps the root session at the root. -/
theorem buildNode_session (sessions : List Session) :
    ∀ fuel s, (buildNode sessions fuel s).session = s := by
  intro fuel s
  cases fuel <;> rfl

/-- Counting a session across a flattened mapped forest. -/
theorem count_flattenForest_map (x : Session) (g : Session → SessionTreeNode) :
    ∀ l : List Session, List.count x (flattenForest (l.map g)) =
      (l.map (fun c => List.count x (flattenNode (g c)))).sum := by
  intro l
  induction l with
  | nil => rfl
  | cons c cs ih =>
      simp only [List.map_cons, flattenForest, List.count_append,
        List.sum_cons, ih]

/-- A sum of zeros over a session list. -/
theorem sum_map_zero (l : List Session) (f : Session → Nat)
    (h : ∀ c ∈ l, f c = 0) : (l.map f).sum = 0 := by
  induction l with
  | nil => rfl
  | cons c cs ih =>
      simp only [List.map_cons, List.sum_cons, h c (List.mem_cons_self c cs),
        ih fun d hd => h d (List.mem_cons_of_mem c hd), Nat.add_zero]

/-- A sum of indicators over a duplicate-free list with exactly one hit. -/
theorem sum_map_indicator_one (l : List Session) (f : Session → Nat)
    (w : Session) (hnodup : l.Nodup) (hw : w ∈ l) (hfw : f w = 1)
    (hz : ∀ c ∈ l, c ≠ w → f c = 0) : (l.map f).sum = 1 := by
  induction l with
  | nil => cases hw
  | cons c cs ih =>
      rw [List.nodup_cons] at hnodup
      rcases List.mem_cons.mp hw with rfl | hw'
      · simp only [List.map_cons, List.sum_cons, hfw]
        have hzz : (cs.map f).sum = 0 :=
          sum_map_zero cs f fun d hd =>
            hz d (List.mem_cons_of_mem _ hd)
              (fun he => hnodup.1 (by rw [← he]; exact hd))
        rw [hzz]
      · have hcz : f c = 0 :=
          hz c (List.mem_cons_self _ _) fun he => hnodup.1 (by rw [he]; exact hw')
        simp only [List.map_cons, List.sum_cons, hcz, Nat.zero_add]
        exact ih hnodup.2 hw' fun d hd hdw =>
          hz d (List.mem_cons_of_mem _ hd) hdw

/-- Two sessions that both point at u and are chained together produce a
cycle at u. -/
theorem children_chain_cycle (sessions : List Session)
    (hacy : ∀ s ∈ sessions, ∀ k, ancIter sessions (k + 1) s ≠ some s)
    (u c w : Session) (m : Nat) (humem : u ∈ sessions)
    (hpc : parentStep sessions c = some u)
    (hpw : parentStep sessions w = some u)
    (hchain : ancIter sessions m c = some w) (hm : 1 ≤ m) : False := by
  have htop : ancIter sessions (m + 1) c = some u := by
    rw [ancIter_succ_top, hchain]
    exact hpw
  have hbot : ancIter sessions (m + 1) c = ancIter sessions m u :=
    ancIter_succ_some sessions m c u hpc
  have hcyc : ancIter sessions m u = some u := by
    rw [← hbot]
    exact htop
  obtain ⟨m', rfl⟩ : ∃ m', m = m' + 1 := ⟨m - 1, by omega⟩
  exact hacy u humem m' hcyc

/-- When no bounded ancestor chain links x up to u, x does not occur in the
subtree rooted at u. -/
theorem count_subtree_zero (sessions : List Session)
    (hids : (sessions.map Session.session_id).Nodup) :
    ∀ fuel u x, u ∈ sessions → x ∈ sessions →
      (∀ k, k ≤ fuel → ancIter sessions k x ≠ some u) →
      List.count x (flattenNode (buildNode sessions fuel u)) = 0 := by
  intro fuel
  induction fuel with
  | zero =>
      intro u x hu hx hk
      have hxu : x ≠ u := fun he => hk 0 (Nat.le_refl 0) (by rw [he]; rfl)
      simp only [buildNode, flattenNode, flattenForest]
      rw [List.count_eq_zero]
      simp [hxu]
  | succ fuel ih =>
      intro u x hu hx hk
      have hxu : x ≠ u := fun he => hk 0 (Nat.zero_le _) (by rw [he]; rfl)
      simp only [buildNode, flattenNode]
      rw [List.count_cons, count_flattenForest_map,
        if_neg (by rw [beq_iff_eq]; exact Ne.symm hxu), Nat.add_zero]
      apply sum_map_zero
      intro c hc
      rcases (mem_childrenOf sessions u.session_id c).mp hc with ⟨hcs, hcp⟩
      apply ih c x hcs hx
      intro j hj hjx
      have hstep : parentStep sessions c = some u := by
        unfold parentStep
        rw [hcp]
        exact findSessionById_self sessions u hids hu
      have hup : ancIter sessions (j + 1) x = some u := by
        rw [ancIter_succ_top, hjx]
        exact hstep
      exact hk (j + 1) (Nat.succ_le_succ hj) hup

/-- When a bounded ancestor chain links x up to u, x occurs exactly once in
the subtree rooted at u. -/
theorem count_subtree_one (sessions : List Session)
    (hids : (sessions.map Session.session_id).Nodup)
    (hacy : ∀ s ∈ sessions, ∀ k, ancIter sessions (k + 1) s ≠ some s) :
    ∀ k fuel u x, k ≤ fuel → ancIter sessions k x = some u →
      u ∈ sessions → x ∈ sessions →
      List.count x (flattenNode (buildNode sessions fuel u)) = 1 := by
  have hnodups : sessions.Nodup := hids.of_map
  intro k
  induction k with
  | zero =>
      intro fuel u x _ hanc hu hx
      injection hanc with hanc
      subst hanc
      cases fuel with
      | zero =>
          simp only [buildNode, flattenNode, flattenForest]
          rw [List.count_cons, List.count_nil, if_pos (by simp)]
      | succ fuel =>
          simp only [buildNode, flattenNode]
          rw [List.count_cons, count_flattenForest_map, if_pos (by simp)]
          have hzz :
              ((childrenOf sessions x.session_id).map
                (fun c => List.count x (flattenNode (buildNode sessions fuel c)))).sum = 0 := by
            apply sum_map_zero
            intro c hc
            rcases (mem_childrenOf sessions x.session_id c).mp hc with ⟨hcs, hcp⟩
            apply count_subtree_zero sessions hids fuel c x hcs hx
            intro j hj hjx
            have hstep : parentStep sessions c = some x := by
              unfold parentStep
              rw [hcp]
              exact findSessionById_self sessions x hids hx
            apply hacy x hx j
            rw [ancIter_succ_top, hjx]
            exact hstep
          rw [hzz]
  | succ k ih =>
      intro fuel u x hk hanc hu hx
      cases fuel with
      | zero => exact absurd hk (by omega)
      | succ fuel =>
          have hkf : k ≤ fuel := Nat.succ_le_succ_iff.mp hk
          rw [ancIter_succ_top] at hanc
          cases hw : ancIter sessions k x with
          | none =>
              rw [hw] at hanc
              cases hanc
          | some w =>
              rw [hw] at hanc
              have hpw : parentStep sessions w = some u := hanc
              have hwmem : w ∈ sessions := by
                rcases ancIter_mem sessions k x w hw with rfl | h
                · exact hx
                · exact h
              have hxneu : x ≠ u := by
                intro he
                subst he
                apply hacy x hx k
                rw [ancIter_succ_top, hw]
                exact hpw
              rcases parentStep_some sessions w u hpw with ⟨hwref, _⟩
              have hwchild : w ∈ childrenOf sessions u.session_id :=
                (mem_childrenOf sessions u.session_id w).mpr ⟨hwmem, hwref⟩
              simp only [buildNode, flattenNode]
              rw [List.count_cons, count_flattenForest_map,
                if_neg (by rw [beq_iff_eq]; exact Ne.symm hxneu), Nat.add_zero]
              apply sum_map_indicator_one _ _ w (hnodups.filter _) hwchild
              · exact ih fuel w x hkf hw hwmem hx
              · intro c hc hcw
                rcases (mem_childrenOf _ _ c).mp hc with ⟨hcs, hcp⟩
                have hpc : parentStep sessions c = some u := by
                  unfold parentStep
                  rw [hcp]
                  exact findSessionById_self sessions u hids hu
                apply count_subtree_zero sessions hids fuel c x hcs hx
                intro j hj hjx
                rcases Nat.lt_trichotomy j k with hjk | rfl | hkj
                · have hdec : ancIter sessions k x =
                      (ancIter sessions j x).bind (ancIter sessions (k - j)) := by
                    rw [← ancIter_add, Nat.add_sub_cancel' (Nat.le_of_lt hjk)]
                  rw [hjx, hw] at hdec
                  exact children_chain_cycle sessions hacy u c w (k - j) hu hpc
                    hpw hdec.symm (by omega)
                · rw [hjx] at hw
                  injection hw with hw
                  exact hcw hw
                · have hdec : ancIter sessions j x =
                      (ancIter sessions k x).bind (ancIter sessions (j - k)) := by
                    rw [← ancIter_add, Nat.add_sub_cancel' (Nat.le_of_lt hkj)]
                  rw [hjx, hw] at hdec
                  exact children_chain_cycle sessions hacy u w c (j - k) hu hpw
                    hpc hdec.symm (by omega)

/-- Walking up from any store member, a root is reached in fewer steps than
the store size minus the already-visited chain: the chain cannot revisit a
session without creating a cycle. -/
theorem reaches_root_aux (sessions : List Session)
    (hres : ∀ s ∈ sessions, ∀ p, parentRefOf s = some p →
      ∃ t ∈ sessions, t.session_id = p)
    (hacy : ∀ s ∈ sessions, ∀ k, ancIter sessions (k + 1) s ≠ some s) :
    ∀ (n : Nat) (s : Session) (visited : List Session),
      s ∈ sessions → visited.Nodup →
      (∀ v ∈ visited, v ∈ sessions) → s ∉ visited →
      (∀ v ∈ visited, ∃ j, 1 ≤ j ∧ ancIter sessions j v = some s) →
      n = sessions.length - visited.length →
      ∃ k r, k < n ∧ ancIter sessions k s = some r ∧
        parentRefOf r = none ∧ r ∈ sessions := by
  intro n
  induction n with
  | zero =>
      intro s visited hs hnd hsub hnotin _ hlen
      exfalso
      have hsv : (s :: visited).Nodup := List.nodup_cons.mpr ⟨hnotin, hnd⟩
      have hsubset : (s :: visited) ⊆ sessions := by
        intro a ha
        rcases List.mem_cons.mp ha with rfl | ha
        · exact hs
        · exact hsub a ha
      have hle := (List.subperm_of_subset hsv hsubset).length_le
      simp only [List.length_cons] at hle
      omega
  | succ m ih =>
      intro s visited hs hnd hsub hnotin hinv hlen
      cases hps : parentStep sessions s with
      | none =>
          have hpr : parentRefOf s = none := by
            cases hpr : parentRefOf s with
            | none => rfl
            | some p =>
                exfalso
                rcases hres s hs p hpr with ⟨t, ht, htid⟩
                have hsome : (findSessionById sessions p).isSome := by
                  unfold findSessionById
                  rw [List.find?_isSome]
                  exact ⟨t, ht, by simp [htid]⟩
                have hred : parentStep sessions s = findSessionById sessions p := by
                  unfold parentStep
                  rw [hpr]
                rw [hred] at hps
                rw [hps] at hsome
                cases hsome
          exact ⟨0, s, by omega, rfl, hpr, hs⟩
      | some v =>
          rcases parentStep_some sessions s v hps with ⟨_, hvmem⟩
          have hv1 : ancIter sessions 1 s = some v := by
            rw [ancIter_one]
            exact hps
          have hvnotin : v ∉ s :: visited := by
            intro hvin
            rcases List.mem_cons.mp hvin with he | hvin'
            · apply hacy s hs 0
              rw [show (0 : Nat) + 1 = 1 from rfl]
              rw [he] at hv1
              exact hv1
            · rcases hinv v hvin' with ⟨j, _, hjv⟩
              apply hacy v hvmem j
              rw [ancIter_add sessions j 1 v, hjv]
              exact hv1
          have hinv2 : ∀ w ∈ s :: visited, ∃ j, 1 ≤ j ∧
              ancIter sessions j w = some v := by
            intro w hw
            rcases List.mem_cons.mp hw with rfl | hw'
            · exact ⟨1, Nat.le_refl 1, hv1⟩
            · rcases hinv w hw' with ⟨j, hj, hjw⟩
              refine ⟨j + 1, by omega, ?_⟩
              rw [ancIter_add sessions j 1 w, hjw]
              exact hv1
          have hlen2 : m = sessions.length - (s :: visited).length := by
            have hsv : (s :: visited).Nodup := List.nodup_cons.mpr ⟨hnotin, hnd⟩
            have hsubset : (s :: visited) ⊆ sessions := by
              intro a ha
              rcases List.mem_cons.mp ha with rfl | ha
              · exact hs
              · exact hsub a ha
            have hle := (List.subperm_of_subset hsv hsubset).length_le
            simp only [List.length_cons] at hle ⊢
            omega
          rcases ih v (s :: visited) hvmem
              (List.nodup_cons.mpr ⟨hnotin, hnd⟩)
              (by
                intro a ha
                rcases List.mem_cons.mp ha with rfl | ha
                · exact hs
                · exact hsub a ha)
              hvnotin hinv2 hlen2 with ⟨k, r, hk, hkr, hrroot, hrmem⟩
          refine ⟨k + 1, r, by omega, ?_, hrroot, hrmem⟩
          rw [ancIter_succ_some sessions k s v hps]
          exact hkr

/-- Every store member reaches a root in fewer steps than the store size. -/
theorem reaches_root (sessions : List Session)
    (hres : ∀ s ∈ sessions, ∀ p, parentRefOf s = some p →
      ∃ t ∈ sessions, t.session_id = p)
    (hacy : ∀ s ∈ sessions, ∀ k, ancIter sessions (k + 1) s ≠ some s) :
    ∀ s ∈ sessions, ∃ k r, k < sessions.length ∧
      ancIter sessions k s = some r ∧ parentRefOf r = none ∧ r ∈ sessions := by
  intro s hs
  exact reaches_root_aux sessions hres hacy sessions.length s [] hs
    List.nodup_nil (by intro v hv; cases hv) (by intro h; cases h)
    (by intro v hv; cases hv) (by simp)

/-- The walk dies immediately above a root. -/
theorem ancIter_root_none (sessions : List Session) (r : Session)
    (hroot : parentRefOf r = none) :
    ∀ m, ancIter sessions (m + 1) r = none := by
  intro m
  apply ancIter_succ_none
  unfold parentStep
  rw [hroot]

/-- On a session with non-empty references, the root test of
buildSessionTree coincides with having neither reference set. -/
theorem rootPred_eq (s : Session) (hne : refsNonEmpty s) :
    (parentRefOf s == none) = decide (isRootRecord s) := by
  cases hg : s.genealogy with
  | none =>
      have h1 : parentRefOf s = none := by
        unfold parentRefOf
        rw [hg]
      have h2 : isRootRecord s := by
        intro g hgg
        rw [hg] at hgg
        cases hgg
      rw [h1]
      simp [h2]
  | some g =>
      rcases hne g hg with ⟨hp, hf⟩
      have hpr : parentRefOf s =
          (strTruthy g.parent_session_id).orElse
            fun _ => strTruthy g.forked_from_session_id := by
        unfold parentRefOf
        rw [hg]
      cases hgp : g.parent_session_id with
      | some p =>
          have hpne : p ≠ "" := fun he => hp (by rw [hgp, he])
          have h1 : parentRefOf s = some p := by
            rw [hpr]
            simp [strTruthy, hgp, hpne, Option.orElse]
          have h2 : ¬ isRootRecord s := by
            intro hr
            rcases hr g hg with ⟨hgp2, _⟩
            rw [hgp] at hgp2
            cases hgp2
          rw [h1]
          simp [h2]
      | none =>
          cases hgf : g.forked_from_session_id with
          | some p =>
              have hpne : p ≠ "" := fun he => hf (by rw [hgf, he])
              have h1 : parentRefOf s = some p := by
                rw [hpr]
                simp [strTruthy, hgp, hgf, hpne, Option.orElse]
              have h2 : ¬ isRootRecord s := by
                intro hr
                rcases hr g hg with ⟨_, hgf2⟩
                rw [hgf] at hgf2
                cases hgf2
              rw [h1]
              simp [h2]
          | none =>
              have h1 : parentRefOf s = none := by
                rw [hpr]
                simp [strTruthy, hgp, hgf, Option.orElse]
              have h2 : isRootRecord s := by
                intro g2 hg2
                rw [hg] at hg2
                injection hg2 with hg2
                rw [← hg2]
                exact ⟨hgp, hgf⟩
              rw [h1]
              simp [h2]

/-- The roots of the forest are exactly the sessions with neither reference
set, in input order. -/
theorem buildSessionTree_roots (sessions : List Session)
    (hne : ∀ s ∈ sessions, refsNonEmpty s) :
    (buildSessionTree sessions).map SessionTreeNode.session =
      sessions.filter (fun s => decide (isRootRecord s)) := by
  unfold buildSessionTree
  rw [List.map_map]
  have h1 : (sessions.filter (fun s => parentRefOf s == none)).map
      (SessionTreeNode.session ∘ buildNode sessions sessions.length) =
      (sessions.filter (fun s => parentRefOf s == none)).map id :=
    List.map_congr_left fun s _ => buildNode_session sessions _ s
  rw [h1, List.map_id]
  exact List.filter_congr fun s hs => rootPred_eq s (hne s hs)

/-- Every input session occurs exactly once in the flattened forest. -/
theorem flatten_perm (sessions : List Session)
    (hres : ∀ s ∈ sessions, ∀ p, parentRefOf s = some p →
      ∃ t ∈ sessions, t.session_id = p)
    (hids : (sessions.map Session.session_id).Nodup)
    (hacy : ∀ s ∈ sessions, ∀ k, ancIter sessions (k + 1) s ≠ some s) :
    (flattenForest (buildSessionTree sessions)).Perm sessions := by
  have hnodups : sessions.Nodup := hids.of_map
  rw [List.perm_iff_count]
  intro x
  by_cases hx : x ∈ sessions
  · rw [List.count_eq_one_of_mem hnodups hx]
    unfold buildSessionTree
    rw [count_flattenForest_map]
    rcases reaches_root sessions hres hacy x hx with ⟨k, r, hkN, hanc, hroot, hrmem⟩
    apply sum_map_indicator_one _ _ r (hnodups.filter _)
        (List.mem_filter.mpr ⟨hrmem, by simp [hroot]⟩)
    · exact count_subtree_one sessions hids hacy k sessions.length r x
        (by omega) hanc hrmem hx
    · intro r' hr' hner
      rcases List.mem_filter.mp hr' with ⟨hr'mem, hr'root⟩
      have hr'rootp : parentRefOf r' = none := by simpa using hr'root
      apply count_subtree_zero sessions hids sessions.length r' x hr'mem hx
      intro j hj hjx
      rcases Nat.lt_trichotomy j k with hjk | rfl | hkj
      · have hdec : ancIter sessions k x =
            (ancIter sessions j x).bind (ancIter sessions (k - j)) := by
          rw [← ancIter_add, Nat.add_sub_cancel' (Nat.le_of_lt hjk)]
        rw [hjx, Option.some_bind] at hdec
        obtain ⟨m, hm⟩ : ∃ m, k - j = m + 1 := ⟨k - j - 1, by omega⟩
        rw [hm, ancIter_root_none sessions r' hr'rootp m, hanc] at hdec
        cases hdec
      · rw [hanc] at hjx
        injection hjx with hjx
        exact hner hjx.symm
      · have hdec : ancIter sessions j x =
            (ancIter sessions k x).bind (ancIter sessions (j - k)) := by
          rw [← ancIter_add, Nat.add_sub_cancel' (Nat.le_of_lt hkj)]
        rw [hanc, Option.some_bind] at hdec
        obtain ⟨m, hm⟩ : ∃ m, j - k = m + 1 := ⟨j - k - 1, by omega⟩
        rw [hm, ancIter_root_none sessions r hroot m, hjx] at hdec
        cases hdec
  · rw [List.count_eq_zero_of_not_mem hx, List.count_eq_zero]
    intro hmem
    unfold buildSessionTree at hmem
    rcases (flattenForest_map_mem _ _ x).mp hmem with ⟨r, hr, hxr⟩
    have hrmem : r ∈ sessions := (List.mem_filter.mp hr).1
    exact hx (mem_subtree_mem sessions sessions.length r hrmem x hxr)

/-- Edges of a subtree embed into the edges of any forest containing it. -/
theorem edgesForest_map_mem (g : Session → SessionTreeNode) :
    ∀ (l : List Session) (e : Session × Session) (c : Session),
      c ∈ l → e ∈ edgesNode (g c) → e ∈ edgesForest (l.map g) := by
  intro l
  induction l with
  | nil =>
      intro e c hc
      cases hc
  | cons d ds ih =>
      intro e c hc he
      simp only [List.map_cons, edgesForest, List.mem_append]
      rcases List.mem_cons.mp hc with rfl | hc'
      · exact Or.inl he
      · exact Or.inr (ih e c hc' he)

/-- Every child edge below a chain ending at r is realized inside the
subtree rooted at r, given enough fuel. -/
theorem edge_in_subtree (sessions : List Session) :
    ∀ k fuel (c r : Session), ancIter sessions k c = some r → k < fuel →
      c ∈ sessions →
      ∀ d ∈ childrenOf sessions c.session_id,
        (c, d) ∈ edgesNode (buildNode sessions fuel r) := by
  intro k
  induction k with
  | zero =>
      intro fuel c r hanc hkf hc d hd
      injection hanc with hanc
      subst hanc
      cases fuel with
      | zero => omega
      | succ fuel =>
          simp only [buildNode, edgesNode]
          apply List.mem_append_left
          rw [List.map_map]
          refine List.mem_map.mpr ⟨d, hd, ?_⟩
          simp [Function.comp, buildNode_session]
  | succ k ih =>
      intro fuel c r hanc hkf hc d hd
      cases fuel with
      | zero => omega
      | succ fuel =>
          rw [ancIter_succ_top] at hanc
          cases hw : ancIter sessions k c with
          | none =>
              rw [hw] at hanc
              cases hanc
          | some w =>
              rw [hw] at hanc
              have hpw : parentStep sessions w = some r := hanc
              have hwmem : w ∈ sessions := by
                rcases ancIter_mem sessions k c w hw with rfl | h
                · exact hc
                · exact h
              rcases parentStep_some sessions w r hpw with ⟨hwref, _⟩
              have hwchild : w ∈ childrenOf sessions r.session_id :=
                (mem_childrenOf _ _ _).mpr ⟨hwmem, hwref⟩
              simp only [buildNode, edgesNode]
              apply List.mem_append_right
              exact edgesForest_map_mem (buildNode sessions fuel)
                (childrenOf sessions r.session_id) (c, d) w hwchild
                (ih fuel c w hw (by omega) hc d hd)

/-- C9 (counterexample): the claim quantifies over every session list whose
non-null references resolve and whose ancestor relation is acyclic, and
asserts every input session appears exactly once in the forest.  dupSessions
satisfies both hypotheses, but its two root records share one id, so the
child pointing at that id is attached below both roots and appears twice. -/
theorem C9_counterexample_duplicate_ids :
    (∀ s ∈ dupSessions, ∀ p, parentRefOf s = some p →
      ∃ t ∈ dupSessions, t.session_id = p) ∧
    (∀ s ∈ dupSessions, ∀ k, ancIter dupSessions (k + 1) s ≠ some s) ∧
    dupChild ∈ dupSessions ∧
    List.count dupChild (flattenForest (buildSessionTree dupSessions)) = 2 := by
  have hprA : parentRefOf dupRootA = none := by decide
  have hprB : parentRefOf dupRootB = none := by decide
  have hpsA : parentStep dupSessions dupRootA = none := by decide
  have hpsB : parentStep dupSessions dupRootB = none := by decide
  have hpsC : parentStep dupSessions dupChild = some dupRootA := by decide
  refine ⟨?_, ?_, by decide, by decide⟩
  · intro s hs p hp
    rcases show s = dupRootA ∨ s = dupRootB ∨ s = dupChild by
        simpa [dupSessions] using hs with rfl | rfl | rfl
    · rw [hprA] at hp
      cases hp
    · rw [hprB] at hp
      cases hp
    · have hc : parentRefOf dupChild = some "dup" := by decide
      rw [hc] at hp
      injection hp with hp
      exact ⟨dupRootA, by decide, (show dupRootA.session_id = "dup" from rfl).trans hp⟩
  · intro s hs k
    rcases show s = dupRootA ∨ s = dupRootB ∨ s = dupChild by
        simpa [dupSessions] using hs with rfl | rfl | rfl
    · rw [ancIter_succ_none dupSessions k dupRootA hpsA]
      exact fun h => by cases h
    · rw [ancIter_succ_none dupSessions k dupRootB hpsB]
      exact fun h => by cases h
    · rw [ancIter_succ_some dupSessions k dupChild dupRootA hpsC]
      cases k with
      | zero =>
          intro h
          injection h with h
          exact absurd h (by decide)
      | succ k =>
          rw [ancIter_succ_none dupSessions k dupRootA hpsA]
          exact fun h => by cases h

/-- C9 (amended): for every session list with pairwise-distinct ids whose
genealogy references are non-empty strings resolving to sessions in the list
and whose ancestor relation is acyclic, buildSessionTree returns a forest
whose roots are exactly the sessions with neither reference set, in which
every input session appears exactly once, and in which each non-root session
is a child of the session named by its chosen ancestor pointer
(parent_session_id when present, otherwise forked_from_session_id). -/
theorem C9_buildSessionTree_forest (sessions : List Session)
    (hres : ∀ s ∈ sessions, ∀ p, parentRefOf s = some p →
      ∃ t ∈ sessions, t.session_id = p)
    (hids : (sessions.map Session.session_id).Nodup)
    (hne : ∀ s ∈ sessions, refsNonEmpty s)
    (hacy : ∀ s ∈ sessions, ∀ k, ancIter sessions (k + 1) s ≠ some s) :
    (buildSessionTree sessions).map SessionTreeNode.session =
        sessions.filter (fun s => decide (isRootRecord s)) ∧
    (flattenForest (buildSessionTree sessions)).Perm sessions ∧
    (∀ s ∈ sessions, ∀ p, parentRefOf s = some p → ∀ u ∈ sessions,
        u.session_id = p → (u, s) ∈ edgesForest (buildSessionTree sessions)) := by
  refine ⟨buildSessionTree_roots sessions hne,
    flatten_perm sessions hres hids hacy, ?_⟩
  intro s hs p hp u hu hup
  have hchild : s ∈ childrenOf sessions u.session_id :=
    (mem_childrenOf _ _ _).mpr ⟨hs, by rw [hup]; exact hp⟩
  rcases reaches_root sessions hres hacy u hu with ⟨k, r, hkN, hanc, hroot, hrmem⟩
  unfold buildSessionTree
  exact edgesForest_map_mem _ _ (u, s) r
    (List.mem_filter.mpr ⟨hrmem, by simp [hroot]⟩)
    (edge_in_subtree sessions k sessions.length u r hanc hkN hu s hchild)

/-- The mock session collection has an acyclic ancestor relation. -/
theorem mockSessionTree_acyclic :
    ∀ s ∈ mockSessionTree, ∀ k,
      ancIter mockSessionTree (k + 1) s ≠ some s := by
  have hA : parentStep mockSessionTree mockSessionA = none := by decide
  have hB : parentStep mockSessionTree mockSessionB = some mockSessionA := by
    decide
  have hC : parentStep mockSessionTree mockSessionC = some mockSessionA := by
    decide
  intro s hs k
  rcases show s = mockSessionA ∨ s = mockSessionB ∨ s = mockSessionC by
      simpa [mockSessionTree] using hs with rfl | rfl | rfl
  · rw [ancIter_succ_none mockSessionTree k mockSessionA hA]
    exact fun h => by cases h
  · rw [ancIter_succ_some mockSessionTree k mockSessionB mockSessionA hB]
    cases k with
    | zero =>
        intro h
        injection h with h
        exact absurd h (by decide)
    | succ k =>
        rw [ancIter_succ_none mockSessionTree k mockSessionA hA]
        exact fun h => by cases h
  · rw [ancIter_succ_some mockSessionTree k mockSessionC mockSessionA hC]
    cases k with
    | zero =>
        intro h
        injection h with h
        exact absurd h (by decide)
    | succ k =>
        rw [ancIter_succ_none mockSessionTree k mockSessionA hA]
        exact fun h => by cases h

/-- C9 witness: the amended forest facts at the mock session collection. -/
theorem C9_witness :
    (buildSessionTree mockSessionTree).map SessionTreeNode.session =
        mockSessionTree.filter (fun s => decide (isRootRecord s)) ∧
    (flattenForest (buildSessionTree mockSessionTree)).Perm mockSessionTree ∧
    (∀ s ∈ mockSessionTree, ∀ p, parentRefOf s = some p →
        ∀ u ∈ mockSessionTree, u.session_id = p →
        (u, s) ∈ edgesForest (buildSessionTree mockSessionTree)) := by
  apply C9_buildSessionTree_forest mockSessionTree
  · intro s hs p hp
    rcases show s = mockSessionA ∨ s = mockSessionB ∨ s = mockSessionC by
        simpa [mockSessionTree] using hs with rfl | rfl | rfl
    · rw [show parentRefOf mockSessionA = none by decide] at hp
      cases hp
    · rw [show parentRefOf mockSessionB = some "abc123" by decide] at hp
      injection hp with hp
      exact ⟨mockSessionA, by decide,
        (show mockSessionA.session_id = "abc123" from rfl).trans hp⟩
    · rw [show parentRefOf mockSessionC = some "abc123" by decide] at hp
      injection hp with hp
      exact ⟨mockSessionA, by decide,
        (show mockSessionA.session_id = "abc123" from rfl).trans hp⟩
  · decide
  · decide
  · exact mockSessionTree_acyclic

end Agor
